import Mathlib

/-!
A shallow embedding of the streaming-aggregation core of this repository:
the thread pool (cpp/src/arrow/util/thread_pool.cc), the source node
(cpp/src/arrow/compute/exec/source_node.cc) and the two aggregation nodes
(cpp/src/arrow/compute/exec/aggregate_node.cc).  Pure fragments of the C++
are translated into executable Lean functions; the effectful operator code
is translated into explicit state-passing functions that also return the
list of calls the operator makes on its downstream output.  Collaborators
that live outside the translated files (the atomic counter, the execution
context, and the opaque kernel and grouper objects) are modelled from the
specification and their doc comments say so.
-/

set_option linter.unusedVariables false
set_option linter.unnecessarySeqFocus false

/-- Error categories of the arrow Status values that occur in the embedded
code fragments. -/
inductive ErrKind where
  | invalid
  | indexErr
  | internalErr
  deriving DecidableEq, Repr

/-- A failed arrow Status: an error code plus a message. -/
structure StatusErr where
  kind : ErrKind
  msg : String
  deriving DecidableEq, Repr

/-- Modelled from the spec: the atomic counter (its header is not under
src/).  State is a current count, a settable total (none being the unset
sentinel) and a completion flag; at most one caller ever observes
completion across increment, set_total and cancel. -/
structure AtomicCounter where
  count : Nat
  total : Option Nat
  complete : Bool
  deriving DecidableEq, Repr

def AtomicCounter.fresh : AtomicCounter :=
  { count := 0, total := none, complete := false }

/-- Modelled from the spec: the one-shot completion transition shared by
increment, set_total and cancel; it returns true only for the first
completing caller. -/
def AtomicCounter.doneOnce (c : AtomicCounter) : AtomicCounter × Bool :=
  if c.complete then (c, false) else ({ c with complete := true }, true)

/-- Modelled from the spec: increment adds one and reports completion
exactly when the new value equals a previously set total. -/
def AtomicCounter.increment (c : AtomicCounter) : AtomicCounter × Bool :=
  let c := { c with count := c.count + 1 }
  if c.total = some c.count then c.doneOnce else (c, false)

/-- Modelled from the spec: set_total records the total and reports
completion iff the current count already equals it at the moment of
setting. -/
def AtomicCounter.setTotal (c : AtomicCounter) (n : Nat) : AtomicCounter × Bool :=
  let c := { c with total := some n }
  if c.count = n then c.doneOnce else (c, false)

/-- Modelled from the spec: cancel reports true iff it is the first
completing transition on the counter. -/
def AtomicCounter.cancel (c : AtomicCounter) : AtomicCounter × Bool :=
  c.doneOnce

/-- Characters treated as whitespace by std::stoi (std::isspace in the
default locale): space, horizontal tab, newline, vertical tab, form feed
and carriage return. -/
def isSpaceChar (c : Char) : Bool :=
  c = ' ' || c = '\t' || c = '\n' || c = Char.ofNat 11 || c = Char.ofNat 12 || c = '\r'

/-- Value of a list of decimal digit characters. -/
def digitsVal (ds : List Char) : Nat :=
  ds.foldl (fun acc c => 10 * acc + (c.toNat - 48)) 0

/-- Translation of the std::stoi call in ParseOMPEnvVar (thread_pool.cc):
skip leading whitespace and an optional sign, then read decimal digits;
none models the thrown invalid_argument (no digits at all) and
out_of_range (value outside the int range) exceptions, both of which the
caller catches. -/
def stoiInt (s : String) : Option Int :=
  let cs := s.data.dropWhile (fun c => isSpaceChar c)
  let signAndRest : Int × List Char :=
    match cs with
    | '-' :: rest => (-1, rest)
    | '+' :: rest => (1, rest)
    | _ => (1, cs)
  let ds := signAndRest.2.takeWhile (fun c => c.isDigit)
  if ds.isEmpty then none
  else
    let v : Int := signAndRest.1 * (digitsVal ds : Int)
    if v > 2147483647 || v < -2147483648 then none else some v

/-- Translation of ParseOMPEnvVar (thread_pool.cc).  The environment value
is passed explicitly, none meaning the variable is unset (GetEnvVar
failed).  Only the text before the first comma is parsed; a failed parse
yields 0 and negative parses are clamped to 0 by the max with 0. -/
def ParseOMPEnvVar (value : Option String) : Int :=
  match value with
  | none => 0
  | some str =>
    match stoiInt ⟨str.data.takeWhile (fun c => c ≠ ',')⟩ with
    | none => 0
    | some v => max 0 v

/-- Translation of ThreadPool::DefaultCapacity (thread_pool.cc).  The
environment values of OMP_NUM_THREADS and OMP_THREAD_LIMIT and the result
of std::thread::hardware_concurrency are passed explicitly. -/
def DefaultCapacity (hardwareConcurrency : Nat)
    (ompNumThreads ompThreadLimit : Option String) : Int :=
  let capacity := ParseOMPEnvVar ompNumThreads
  let capacity := if capacity = 0 then (hardwareConcurrency : Int) else capacity
  let limit := ParseOMPEnvVar ompThreadLimit
  let capacity := if limit > 0 then min limit capacity else capacity
  if capacity = 0 then 4 else capacity

/-- The observable side effect of ThreadPool::SetCapacity on the
workforce: some workers were launched, all workers were woken (cv_
notify_all), or nothing happened. -/
inductive WorkforceAction where
  | launched (k : Nat)
  | wokeAll
  | idle
  deriving DecidableEq, Repr

/-- Translation of ThreadPool::State (thread_pool.cc).  Lists of thread
objects are modelled by worker counts, the pending task queue by a list of
task payloads of an abstract type tau. -/
structure PoolState (tau : Type) where
  workers : Nat
  finishedWorkers : Nat
  pendingTasks : List tau
  desiredCapacity : Int
  tasksQueuedOrRunning : Nat
  pleaseShutdown : Bool
  quickShutdown : Bool
  deriving DecidableEq, Repr

/-- Translation of the ThreadPool constructor: State() default-initializes
every field. -/
def PoolState.initial (tau : Type) : PoolState tau :=
  { workers := 0, finishedWorkers := 0, pendingTasks := [],
    desiredCapacity := 0, tasksQueuedOrRunning := 0,
    pleaseShutdown := false, quickShutdown := false }

/-- Translation of ThreadPool::CollectFinishedWorkersUnlocked: join every
thread in the trashcan and clear it. -/
def PoolState.collectFinishedWorkers {tau : Type} (s : PoolState tau) : PoolState tau :=
  { s with finishedWorkers := 0 }

/-- Translation of ThreadPool::SetCapacity (thread_pool.cc).  Rejects a
non-positive capacity and calls during or after shutdown; otherwise stores
the desired capacity and either launches min(pending, threads - workers)
workers (when that is positive) or wakes every worker (when it is
negative) so that surplus workers secede. -/
def PoolState.setCapacity {tau : Type} (s : PoolState tau) (threads : Int) :
    Except StatusErr (PoolState tau × WorkforceAction) :=
  if s.pleaseShutdown then
    .error { kind := .invalid, msg := "operation forbidden during or after shutdown" }
  else if threads ≤ 0 then
    .error { kind := .invalid, msg := "ThreadPool capacity must be > 0" }
  else
    let s := s.collectFinishedWorkers
    let s := { s with desiredCapacity := threads }
    let required : Int := min (s.pendingTasks.length : Int) (threads - (s.workers : Int))
    if 0 < required then
      .ok ({ s with workers := s.workers + required.toNat }, .launched required.toNat)
    else if required < 0 then
      .ok (s, .wokeAll)
    else
      .ok (s, .idle)

/-- Translation of ThreadPool::SpawnReal (thread_pool.cc).  Rejects calls
during or after shutdown; otherwise joins finished workers, increments the
queued-or-running count, launches one worker exactly when the worker count
is below both the new queued-or-running count and the desired capacity,
and appends the task to the pending queue. -/
def PoolState.spawnReal {tau : Type} (s : PoolState tau) (task : tau) :
    Except StatusErr (PoolState tau) :=
  if s.pleaseShutdown then
    .error { kind := .invalid, msg := "operation forbidden during or after shutdown" }
  else
    let s := s.collectFinishedWorkers
    let s := { s with tasksQueuedOrRunning := s.tasksQueuedOrRunning + 1 }
    let s :=
      if s.workers < s.tasksQueuedOrRunning ∧ (s.workers : Int) < s.desiredCapacity then
        { s with workers := s.workers + 1 }
      else s
    .ok { s with pendingTasks := s.pendingTasks ++ [task] }

/-- Translation of ThreadPool::Shutdown (thread_pool.cc).  A second call
is rejected.  The first call records the shutdown mode, wakes the workers
and waits until they have all seceded; with wait the workers drain the
queue before exiting, without wait the queue is cleared.  The task-side
bookkeeping performed by the seceding workers themselves is outside this
sequential model. -/
def PoolState.shutdownPool {tau : Type} (s : PoolState tau) (wait : Bool) :
    Except StatusErr (PoolState tau) :=
  if s.pleaseShutdown then
    .error { kind := .invalid, msg := "Shutdown() already called" }
  else
    let s := { s with pleaseShutdown := true, quickShutdown := !wait }
    let s := { s with workers := 0, pendingTasks := [] }
    .ok s.collectFinishedWorkers

/-- One response of the source node's async generator, together with the
fate of the ensuing delivery: yield carries a batch and whether the
submission of its delivery task succeeded, eos is the end-of-stream
optional, genErr is a failed generator future. -/
inductive GenStep (beta : Type) where
  | yield (b : beta) (submitOk : Bool)
  | eos
  | genErr (e : StatusErr)
  deriving DecidableEq, Repr

/-- Calls the source node makes after StartProducing: a delivered batch
(InputReceived on the single output), ErrorReceived, InputFinished, and
the final resolution on the async task group's End. -/
inductive SrcEvent (beta : Type) where
  | delivered (b : beta)
  | errorReceived (e : StatusErr)
  | inputFinished (total : Nat)
  | taskGroupEnd
  deriving DecidableEq, Repr

/-- Whether the stop flag of the source node is observed at the top of
iteration k: stopAt equal to some j means StopProducing was requested
before the top of iteration j. -/
def stopObserved (stopAt : Option Nat) (k : Nat) : Bool :=
  match stopAt with
  | none => false
  | some j => j ≤ k

/-- The Status produced when adding a delivery task to the async task
group fails (source_node.cc, the AddTask failure path). -/
def submitFailure : StatusErr :=
  { kind := .invalid, msg := "failed to submit delivery task" }

/-- Translation of the Loop body of SourceNode::StartProducing
(source_node.cc).  Each iteration reads and increments the batch counter,
breaks with the old counter value if the stop flag is observed, and
otherwise acts on the generator's next response: a batch is delivered
downstream (or, if submitting its delivery task fails, ErrorReceived is
called and the loop breaks), end-of-stream breaks, and a generator error
calls ErrorReceived and breaks.  An exhausted response list stands for
end-of-stream.  Returns the downstream calls made inside the loop and the
Break value. -/
def sourceLoop {beta : Type} (stopAt : Option Nat) :
    List (GenStep beta) → Nat → List (SrcEvent beta) × Nat
  | [], k => ([], k)
  | step :: rest, k =>
    if stopObserved stopAt k then ([], k)
    else
      match step with
      | .eos => ([], k)
      | .genErr e => ([.errorReceived e], k)
      | .yield b true =>
        let tail := sourceLoop stopAt rest (k + 1)
        (.delivered b :: tail.1, tail.2)
      | .yield _ false => ([.errorReceived submitFailure], k)

/-- Translation of SourceNode::StartProducing (source_node.cc): run the
loop, then call InputFinished with the Break value on the single output
and resolve on the task group's End. -/
def runSource {beta : Type} (steps : List (GenStep beta)) (stopAt : Option Nat) :
    List (SrcEvent beta) :=
  let r := sourceLoop stopAt steps 0
  r.1 ++ [.inputFinished r.2, .taskGroupEnd]

/-- A Datum, one value slot of an ExecBatch: modelled as the list of its
cell values.  Array columns list their rows; the scalar outputs of the
scalar aggregate are whatever the opaque kernel produces. -/
abbrev DatumM (nu : Type) := List nu

/-- Translation of ExecBatch: an ordered tuple of values plus a row
count. -/
structure ExecBatchM (nu : Type) where
  values : List (DatumM nu)
  length : Nat
  deriving DecidableEq, Repr

/-- Calls an aggregation node makes on its single downstream output,
plus the resolution of the node's own finished future (finishedResolved),
recorded in program order. -/
inductive OutEvent (nu : Type) where
  | inputReceived (b : ExecBatchM nu)
  | inputFinished (total : Nat)
  | errorReceived (e : StatusErr)
  | finishedResolved
  deriving DecidableEq, Repr

/-- Modelled from the spec: a scalar aggregate kernel is opaque to the
node and exposes consume, merge-all and finalize; each may fail. -/
structure ScalarKernelM (nu kappa : Type) where
  consume : kappa → ExecBatchM nu → Except StatusErr kappa
  mergeAll : List kappa → Except StatusErr kappa
  finalize : kappa → Except StatusErr (DatumM nu)

/-- Translation of ScalarAggregateNode's fields (aggregate_node.cc): the
resolved target field indices, the kernels, the per-kernel-per-thread
state matrix, the input counter and the finished future (true when
resolved). -/
structure ScalarAggNodeM (nu kappa : Type) where
  targetFieldIds : List Nat
  kernels : List (ScalarKernelM nu kappa)
  states : List (List kappa)
  inputCounter : AtomicCounter
  finished : Bool

/-- Translation of the loop in ScalarAggregateNode::DoConsume: for each
kernel i form the one-column sub-batch from the target field, bind the
thread's state and consume.  On a kernel error the C++ code has already
mutated the states of the earlier kernels; this model returns the error
alone, which no embedded claim observes (errors abandon the batch either
way). -/
def scalarConsumeLoop {nu kappa : Type} [Inhabited kappa]
    (batch : ExecBatchM nu) (t : Nat) :
    List (ScalarKernelM nu kappa × Nat) → List (List kappa) →
    Except StatusErr (List (List kappa))
  | [], sts => .ok sts
  | _ :: _, [] =>
    .error { kind := .internalErr, msg := "state vector shorter than kernel vector" }
  | (k, tid) :: rest, st :: sts =>
    let single : ExecBatchM nu :=
      { values := [batch.values.getD tid []], length := batch.length }
    match k.consume (st.getD t default) single with
    | .error e => .error e
    | .ok s2 =>
      match scalarConsumeLoop batch t rest sts with
      | .error e => .error e
      | .ok stsOut => .ok (st.set t s2 :: stsOut)

/-- Translation of ScalarAggregateNode::DoConsume (aggregate_node.cc). -/
def scalarDoConsume {nu kappa : Type} [Inhabited kappa]
    (n : ScalarAggNodeM nu kappa) (batch : ExecBatchM nu) (t : Nat) :
    Except StatusErr (ScalarAggNodeM nu kappa) :=
  match scalarConsumeLoop batch t (n.kernels.zip n.targetFieldIds) n.states with
  | .error e => .error e
  | .ok sts => .ok { n with states := sts }

/-- Translation of the loop in ScalarAggregateNode::Finish: per kernel,
fold the per-thread partial states with MergeAll, then finalize into the
output value slot. -/
def scalarFinishValues {nu kappa : Type} :
    List (ScalarKernelM nu kappa) → List (List kappa) →
    Except StatusErr (List (DatumM nu))
  | [], _ => .ok []
  | _ :: _, [] =>
    .error { kind := .internalErr, msg := "state vector shorter than kernel vector" }
  | k :: ks, st :: sts => do
    let merged ← k.mergeAll st
    let v ← k.finalize merged
    let vs ← scalarFinishValues ks sts
    .ok (v :: vs)

/-- Translation of ScalarAggregateNode::Finish (aggregate_node.cc): build
the one-row output batch whose i-th value is the finalized merge of kernel
i's per-thread states. -/
def finishScalar {nu kappa : Type} (n : ScalarAggNodeM nu kappa) :
    Except StatusErr (ExecBatchM nu) :=
  match scalarFinishValues n.kernels n.states with
  | .error e => .error e
  | .ok vs => .ok { values := vs, length := 1 }

/-- The completion path shared by InputReceived and InputFinished when the
input counter fires: run Finish, push its batch downstream and resolve
finished, or propagate a kernel error via ErrorReceived. -/
def scalarFinishStep {nu kappa : Type} (n : ScalarAggNodeM nu kappa) :
    ScalarAggNodeM nu kappa × List (OutEvent nu) :=
  match finishScalar n with
  | .ok b => ({ n with finished := true }, [.inputReceived b, .finishedResolved])
  | .error e => (n, [.errorReceived e])

/-- Translation of ScalarAggregateNode::InputReceived (aggregate_node.cc):
consume on this thread's states, propagating a kernel error via
ErrorReceived, then increment the input counter and finish if it fires. -/
def inputReceivedScalar {nu kappa : Type} [Inhabited kappa]
    (n : ScalarAggNodeM nu kappa) (t : Nat) (batch : ExecBatchM nu) :
    ScalarAggNodeM nu kappa × List (OutEvent nu) :=
  match scalarDoConsume n batch t with
  | .error e => (n, [.errorReceived e])
  | .ok n1 =>
    let r := n1.inputCounter.increment
    let n2 := { n1 with inputCounter := r.1 }
    if r.2 then scalarFinishStep n2 else (n2, [])

/-- Translation of ScalarAggregateNode::InputFinished (aggregate_node.cc):
record the total on the input counter and finish if it fires. -/
def inputFinishedScalar {nu kappa : Type} (n : ScalarAggNodeM nu kappa)
    (total : Nat) : ScalarAggNodeM nu kappa × List (OutEvent nu) :=
  let r := n.inputCounter.setTotal total
  let n2 := { n with inputCounter := r.1 }
  if r.2 then scalarFinishStep n2 else (n2, [])

/-- Translation of ScalarAggregateNode::StartProducing (aggregate_node.cc):
create the unresolved finished future and immediately announce a total of
one batch to the single output. -/
def startProducingScalar {nu kappa : Type} (n : ScalarAggNodeM nu kappa) :
    ScalarAggNodeM nu kappa × List (OutEvent nu) :=
  ({ n with finished := false }, [.inputFinished 1])

/-- One call arriving at an aggregation node from its input: a batch
received on thread slot t, or the announcement of the input total. -/
inductive NodeInEvent (nu : Type) where
  | received (t : Nat) (b : ExecBatchM nu)
  | finishedTotal (total : Nat)
  deriving DecidableEq, Repr

/-- Dispatch of one arriving call on the scalar aggregate node. -/
def scalarStep {nu kappa : Type} [Inhabited kappa]
    (n : ScalarAggNodeM nu kappa) :
    NodeInEvent nu → ScalarAggNodeM nu kappa × List (OutEvent nu)
  | .received t b => inputReceivedScalar n t b
  | .finishedTotal total => inputFinishedScalar n total

/-- A whole run of the scalar aggregate node: process the arriving calls
in order, concatenating the downstream calls they cause. -/
def runScalar {nu kappa : Type} [Inhabited kappa]
    (n : ScalarAggNodeM nu kappa) :
    List (NodeInEvent nu) → ScalarAggNodeM nu kappa × List (OutEvent nu)
  | [] => (n, [])
  | e :: es =>
    let r1 := scalarStep n e
    let r2 := runScalar r1.1 es
    (r2.1, r1.2 ++ r2.2)

/-- Number of batches delivered downstream in a list of node events. -/
def countInputReceived {nu : Type} : List (OutEvent nu) → Nat
  | [] => 0
  | .inputReceived _ :: rest => countInputReceived rest + 1
  | _ :: rest => countInputReceived rest

/-- True when every delivered batch in the list is immediately followed by
the resolution of the node's finished future. -/
def deliveryResolvesFinished {nu : Type} : List (OutEvent nu) → Bool
  | [] => true
  | .inputReceived _ :: .finishedResolved :: rest => deliveryResolvesFinished rest
  | .inputReceived _ :: _ => false
  | _ :: rest => deliveryResolvesFinished rest

/-- True for an ErrorReceived call. -/
def isErrorEvent {nu : Type} : OutEvent nu → Bool
  | .errorReceived _ => true
  | _ => false

/-- Row count of every delivered batch in the list is the given bound or
less. -/
def deliveredLengthsLe {nu : Type} (bound : Nat) : List (OutEvent nu) → Bool
  | [] => true
  | .inputReceived b :: rest => b.length ≤ bound && deliveredLengthsLe bound rest
  | _ :: rest => deliveredLengthsLe bound rest

/-- Truncation of an int64 value to the C int width, as performed by the
static_cast to int in GroupByNode::output_batch_size (two's-complement
wrap-around). -/
def toInt32 (v : Int) : Int :=
  let r := v % 4294967296
  if r < 2147483648 then r else r - 4294967296

/-- Translation of GroupByNode::output_batch_size (aggregate_node.cc).
The execution context's exec_chunksize is an int64 field outside src/;
it is passed explicitly here, with none standing for the unset context,
which the spec maps to the 32 KiB default.  The int64 value is truncated
to int; a negative result selects the 32 * 1024 default. -/
def outputBatchSize (execChunksize : Option Int) : Int :=
  match execChunksize with
  | none => 32 * 1024
  | some v =>
    let result := toInt32 v
    if result < 0 then 32 * 1024 else result

/-- Translation of bit_util::CeilDiv on the non-negative operands used in
GroupByNode::Finalize.  A zero divisor is undefined behaviour in the C++
and yields 0 here. -/
def ceilDivNat (value divisor : Nat) : Nat :=
  (value + divisor - 1) / divisor

/-- Modelled from the spec: the grouper is opaque to the node; its
observable state is the number of key columns and the list of distinct
key rows seen so far, in group-id order. -/
structure GrouperM (nu : Type) where
  numKeys : Nat
  uniqueRows : List (List nu)
  deriving DecidableEq, Repr

/-- Modelled from the spec: a freshly constructed grouper has seen no key
rows. -/
def GrouperM.make (nu : Type) (numKeys : Nat) : GrouperM nu :=
  { numKeys := numKeys, uniqueRows := [] }

/-- Modelled from the spec: the number of distinct groups seen so far. -/
def GrouperM.numGroups {nu : Type} (g : GrouperM nu) : Nat :=
  g.uniqueRows.length

/-- Modelled from the spec: consume assigns each key row its stable group
id, extending the unique-row list with rows not seen before, and returns
the id array. -/
def GrouperM.consumeRows {nu : Type} [DecidableEq nu] (g : GrouperM nu)
    (rows : List (List nu)) : GrouperM nu × List Nat :=
  rows.foldl
    (fun acc row =>
      match acc.1.uniqueRows.findIdx? (fun r => decide (r = row)) with
      | some i => (acc.1, acc.2 ++ [i])
      | none =>
        ({ acc.1 with uniqueRows := acc.1.uniqueRows ++ [row] },
         acc.2 ++ [acc.1.uniqueRows.length]))
    (g, [])

/-- Columns of the given key rows: column j lists cell j of every row. -/
def rowsToColumns {nu : Type} [Inhabited nu] (numKeys : Nat)
    (rows : List (List nu)) : List (DatumM nu) :=
  (List.range numKeys).map (fun j => rows.map (fun r => r.getD j default))

/-- Modelled from the spec: get_uniques returns one row per group id, in
id order, as a key batch. -/
def GrouperM.getUniques {nu : Type} [Inhabited nu] (g : GrouperM nu) :
    ExecBatchM nu :=
  { values := rowsToColumns g.numKeys g.uniqueRows,
    length := g.uniqueRows.length }

/-- Modelled from the spec: a hash aggregate kernel is opaque to the node
and exposes init, resize, consume (taking the target column and the
group-id column of the two-column batch the node forms), merge through a
transposition, and finalize; each may fail. -/
structure HashKernelM (nu kappa : Type) where
  init : Except StatusErr kappa
  resize : kappa → Nat → Except StatusErr kappa
  consume : kappa → DatumM nu → List Nat → Except StatusErr kappa
  merge : kappa → kappa → List Nat → Except StatusErr kappa
  finalize : kappa → Except StatusErr (DatumM nu)

/-- Translation of GroupByNode::ThreadLocalState: a lazily built grouper
and the per-kernel states; none models a reset unique_ptr. -/
structure ThreadLocalStateM (nu kappa : Type) where
  grouper : Option (GrouperM nu)
  aggStates : List (Option kappa)
  deriving DecidableEq

/-- Translation of the GroupByNode fields used by the embedded member
functions (aggregate_node.cc). -/
structure GroupByNodeM (nu kappa : Type) where
  keyFieldIds : List Nat
  aggSrcFieldIds : List Nat
  aggKernels : List (HashKernelM nu kappa)
  localStates : List (ThreadLocalStateM nu kappa)
  inputCounter : AtomicCounter
  outputCounter : AtomicCounter
  finished : Bool
  outData : ExecBatchM nu
  execChunksize : Option Int

/-- Translation of GroupByNode::InitLocalStateIfNeeded (aggregate_node.cc):
a slot whose grouper exists is returned unchanged; otherwise construct a
grouper over the key descriptors and initialize one state per kernel. -/
def initLocalStateIfNeeded {nu kappa : Type} (n : GroupByNodeM nu kappa)
    (state : ThreadLocalStateM nu kappa) :
    Except StatusErr (ThreadLocalStateM nu kappa) :=
  match state.grouper with
  | some _ => .ok state
  | none => do
    let sts ← n.aggKernels.mapM (fun k => k.init)
    .ok { grouper := some (GrouperM.make nu n.keyFieldIds.length),
          aggStates := sts.map some }

/-- Translation of the kernel loop in GroupByNode::Consume: for each
aggregate, resize its state to the grouper's group count and consume the
two-column (target column, group ids) batch. -/
def groupConsumeKernels {nu kappa : Type}
    (batch : ExecBatchM nu) (ids : List Nat) (numGroups : Nat) :
    List (HashKernelM nu kappa × Nat) → List (Option kappa) →
    Except StatusErr (List (Option kappa))
  | [], sts => .ok sts
  | _ :: _, [] =>
    .error { kind := .internalErr, msg := "state vector shorter than kernel vector" }
  | (k, srcId) :: rest, stOpt :: sts =>
    match stOpt with
    | none => .error { kind := .internalErr, msg := "kernel state was reset" }
    | some st => do
      let st ← k.resize st numGroups
      let st ← k.consume st (batch.values.getD srcId []) ids
      let stsOut ← groupConsumeKernels batch ids numGroups rest sts
      .ok (some st :: stsOut)

/-- Translation of GroupByNode::Consume (aggregate_node.cc): reject a
thread index at or beyond the slot-vector size with an IndexError before
touching any state; otherwise lazily initialize the slot, feed the key
columns of the batch to the slot's grouper, and run every aggregate
kernel on the resulting group ids. -/
def consumeG {nu kappa : Type} [Inhabited nu] [DecidableEq nu]
    (n : GroupByNodeM nu kappa) (threadIndex : Nat) (batch : ExecBatchM nu) :
    Except StatusErr (GroupByNodeM nu kappa) :=
  if n.localStates.length ≤ threadIndex then
    .error { kind := .indexErr, msg := "thread index is out of range" }
  else do
    let state ← initLocalStateIfNeeded n (n.localStates.getD threadIndex ⟨none, []⟩)
    match state.grouper with
    | none => .error { kind := .internalErr, msg := "grouper missing after init" }
    | some g =>
      let keyCols := n.keyFieldIds.map (fun id => batch.values.getD id [])
      let keyRows := (List.range batch.length).map
        (fun r => keyCols.map (fun col => col.getD r default))
      let gc := g.consumeRows keyRows
      let sts ← groupConsumeKernels batch gc.2 gc.1.numGroups
        (n.aggKernels.zip n.aggSrcFieldIds) state.aggStates
      let state2 : ThreadLocalStateM nu kappa :=
        { grouper := some gc.1, aggStates := sts }
      .ok { n with localStates := n.localStates.set threadIndex state2 }

/-- Translation of the per-kernel body of GroupByNode::Merge: resize slot
0's state to the post-merge group count, merge the source slot's state
through the transposition, and reset the source state.  Returns slot 0's
new states and the source slot's cleared states. -/
def mergeKernelStates {nu kappa : Type} (numGroups : Nat) (transposition : List Nat) :
    List (HashKernelM nu kappa) → List (Option kappa) → List (Option kappa) →
    Except StatusErr (List (Option kappa) × List (Option kappa))
  | [], st0s, srcs => .ok (st0s, srcs)
  | _ :: _, [], _ =>
    .error { kind := .internalErr, msg := "state vector shorter than kernel vector" }
  | _ :: _, _, [] =>
    .error { kind := .internalErr, msg := "state vector shorter than kernel vector" }
  | k :: ks, st0Opt :: st0s, srcOpt :: srcs =>
    match st0Opt, srcOpt with
    | some st0, some src => do
      let st0 ← k.resize st0 numGroups
      let st0 ← k.merge st0 src transposition
      let rest ← mergeKernelStates numGroups transposition ks st0s srcs
      .ok (some st0 :: rest.1, none :: rest.2)
    | _, _ => .error { kind := .internalErr, msg := "missing kernel state in merge" }

/-- Translation of GroupByNode::Merge (aggregate_node.cc): for each later
slot that built a grouper, feed its unique key rows (its GetUniques
batch) to slot 0's grouper, obtaining the transposition, then fold every
kernel state into slot 0's; the source slot's grouper and states are
reset.  The C++ dereferences slot 0's grouper unconditionally here, so
its absence while a later slot is populated is the internal-error
case. -/
def mergeSlots {nu kappa : Type} [Inhabited nu] [DecidableEq nu]
    (kernels : List (HashKernelM nu kappa)) :
    ThreadLocalStateM nu kappa → List (ThreadLocalStateM nu kappa) →
    Except StatusErr (ThreadLocalStateM nu kappa × List (ThreadLocalStateM nu kappa))
  | state0, [] => .ok (state0, [])
  | state0, s :: rest =>
    match s.grouper with
    | none => do
      let r ← mergeSlots kernels state0 rest
      .ok (r.1, s :: r.2)
    | some g =>
      match state0.grouper with
      | none => .error { kind := .internalErr, msg := "slot 0 grouper missing in merge" }
      | some g0 => do
        let gc := g0.consumeRows g.uniqueRows
        let r ← mergeKernelStates gc.1.numGroups gc.2 kernels state0.aggStates s.aggStates
        let state0n : ThreadLocalStateM nu kappa :=
          { grouper := some gc.1, aggStates := r.1 }
        let s2 : ThreadLocalStateM nu kappa := { grouper := none, aggStates := r.2 }
        let r2 ← mergeSlots kernels state0n rest
        .ok (r2.1, s2 :: r2.2)

/-- Translation of GroupByNode::Merge at node level. -/
def mergeG {nu kappa : Type} [Inhabited nu] [DecidableEq nu]
    (n : GroupByNodeM nu kappa) : Except StatusErr (GroupByNodeM nu kappa) :=
  match n.localStates with
  | [] => .error { kind := .internalErr, msg := "no thread slots" }
  | state0 :: rest => do
    let r ← mergeSlots n.aggKernels state0 rest
    .ok { n with localStates := r.1 :: r.2 }

/-- Translation of the kernel loop in GroupByNode::Finalize: finalize each
kernel state into its output column and reset the state. -/
def finalizeKernels {nu kappa : Type} :
    List (HashKernelM nu kappa) → List (Option kappa) →
    Except StatusErr (List (DatumM nu) × List (Option kappa))
  | [], sts => .ok ([], sts)
  | _ :: _, [] =>
    .error { kind := .internalErr, msg := "state vector shorter than kernel vector" }
  | k :: ks, stOpt :: sts =>
    match stOpt with
    | none => .error { kind := .internalErr, msg := "kernel state was reset" }
    | some st => do
      let v ← k.finalize st
      let r ← finalizeKernels ks sts
      .ok (v :: r.1, none :: r.2)

/-- Translation of GroupByNode::Finalize (aggregate_node.cc): initialize
slot 0 if no batch ever reached it, finalize every kernel state into the
leading output columns, append the unique key columns behind them, and
set the output counter's total to ceil(num_groups / output_batch_size),
resolving finished at once when that total is zero (the empty input). -/
def finalizeG {nu kappa : Type} [Inhabited nu] [DecidableEq nu]
    (n : GroupByNodeM nu kappa) : Except StatusErr (GroupByNodeM nu kappa) :=
  match n.localStates with
  | [] => .error { kind := .internalErr, msg := "no thread slots" }
  | state0 :: rest => do
    let state0 ← initLocalStateIfNeeded n state0
    match state0.grouper with
    | none => .error { kind := .internalErr, msg := "grouper missing after init" }
    | some g => do
      let r ← finalizeKernels n.aggKernels state0.aggStates
      let uniques := g.getUniques
      let outData : ExecBatchM nu :=
        { values := r.1 ++ uniques.values, length := g.numGroups }
      let state0f : ThreadLocalStateM nu kappa :=
        { grouper := none, aggStates := r.2 }
      let sc := n.outputCounter.setTotal
        (ceilDivNat outData.length (outputBatchSize n.execChunksize).toNat)
      .ok { n with localStates := state0f :: rest,
                   outputCounter := sc.1,
                   finished := n.finished || sc.2,
                   outData := outData }

/-- Translation of ExecBatch::Slice as used for chunk emission: the rows
from offset on, at most len of them. -/
def sliceBatch {nu : Type} (b : ExecBatchM nu) (offset len : Nat) : ExecBatchM nu :=
  { values := b.values.map (fun col => (col.drop offset).take len),
    length := min len (b.length - offset) }

/-- Translation of GroupByNode::OutputNthBatch (aggregate_node.cc): bail
when finished has resolved (StopProducing was called); otherwise deliver
the n-th slice of the finalized data downstream, increment the output
counter and resolve finished when it fires. -/
def outputNthBatch {nu kappa : Type} (n : GroupByNodeM nu kappa) (i : Nat) :
    GroupByNodeM nu kappa × List (OutEvent nu) :=
  if n.finished then (n, [])
  else
    let bs := (outputBatchSize n.execChunksize).toNat
    let b := sliceBatch n.outData (bs * i) bs
    let r := n.outputCounter.increment
    if r.2 then
      ({ n with outputCounter := r.1, finished := true },
       [.inputReceived b, .finishedResolved])
    else
      ({ n with outputCounter := r.1 }, [.inputReceived b])

/-- The emission loop of GroupByNode::OutputResult on the synchronous
path: OutputNthBatch for rem consecutive chunk indices starting at i. -/
def emitChunks {nu kappa : Type} (n : GroupByNodeM nu kappa) :
    Nat → Nat → GroupByNodeM nu kappa × List (OutEvent nu)
  | _, 0 => (n, [])
  | i, rem + 1 =>
    let r1 := outputNthBatch n i
    let r2 := emitChunks r1.1 (i + 1) rem
    (r2.1, r1.2 ++ r2.2)

/-- Translation of GroupByNode::OutputResult (aggregate_node.cc) on the
synchronous path (no executor configured): merge, finalize, announce the
chunk total downstream with InputFinished, then emit every chunk. -/
def outputResult {nu kappa : Type} [Inhabited nu] [DecidableEq nu]
    (n : GroupByNodeM nu kappa) :
    Except StatusErr (GroupByNodeM nu kappa × List (OutEvent nu)) := do
  let n ← mergeG n
  let n ← finalizeG n
  let total := (n.outputCounter.total).getD 0
  let r := emitChunks n 0 total
  .ok (r.1, .inputFinished total :: r.2)

/-- Translation of GroupByNode::InputReceived (aggregate_node.cc): bail
once finished has resolved; otherwise consume, propagating a failure as
ErrorReceived without touching the input counter, then increment the
input counter and run the output phase if it fires. -/
def inputReceivedG {nu kappa : Type} [Inhabited nu] [DecidableEq nu]
    (n : GroupByNodeM nu kappa) (threadIndex : Nat) (batch : ExecBatchM nu) :
    GroupByNodeM nu kappa × List (OutEvent nu) :=
  if n.finished then (n, [])
  else
    match consumeG n threadIndex batch with
    | .error e => (n, [.errorReceived e])
    | .ok n1 =>
      let r := n1.inputCounter.increment
      let n2 := { n1 with inputCounter := r.1 }
      if r.2 then
        match outputResult n2 with
        | .ok res => res
        | .error e => (n2, [.errorReceived e])
      else (n2, [])

/-- Translation of GroupByNode::InputFinished (aggregate_node.cc): bail
once finished has resolved; otherwise record the total on the input
counter and run the output phase if it fires. -/
def inputFinishedG {nu kappa : Type} [Inhabited nu] [DecidableEq nu]
    (n : GroupByNodeM nu kappa) (total : Nat) :
    GroupByNodeM nu kappa × List (OutEvent nu) :=
  if n.finished then (n, [])
  else
    let r := n.inputCounter.setTotal total
    let n2 := { n with inputCounter := r.1 }
    if r.2 then
      match outputResult n2 with
      | .ok res => res
      | .error e => (n2, [.errorReceived e])
    else (n2, [])

/-- Translation of GroupByNode::StartProducing (aggregate_node.cc): create
the unresolved finished future and size the slot vector to the thread
indexer's capacity. -/
def startProducingG {nu kappa : Type} (n : GroupByNodeM nu kappa)
    (capacity : Nat) : GroupByNodeM nu kappa :=
  { n with finished := false,
           localStates := List.replicate capacity { grouper := none, aggStates := [] } }

/-- A named field of a schema; the arrow data type component is kept
abstract. -/
structure FieldM (phi : Type) where
  name : String
  ty : phi
  deriving DecidableEq, Repr

instance {phi : Type} [Inhabited phi] : Inhabited (FieldM phi) :=
  ⟨{ name := "", ty := default }⟩

/-- Translation of Field::WithName. -/
def FieldM.withName {phi : Type} (f : FieldM phi) (name : String) : FieldM phi :=
  { f with name := name }

/-- Translation of the output-schema construction in GroupByNode::Make
(aggregate_node.cc): the aggregate result fields, renamed to the provided
output names, come first, followed by the key fields of the input
schema. -/
def groupByOutputFields {phi : Type} [Inhabited phi]
    (aggResultFields : List (FieldM phi)) (fieldNames : List String)
    (inputSchema : List (FieldM phi)) (keyFieldIds : List Nat) : List (FieldM phi) :=
  (aggResultFields.zip fieldNames).map (fun p => p.1.withName p.2) ++
    keyFieldIds.map (fun id => inputSchema.getD id default)

/-- Number of batches the source delivered in a list of source events. -/
def countDelivered {beta : Type} : List (SrcEvent beta) → Nat
  | [] => 0
  | .delivered _ :: rest => countDelivered rest + 1
  | _ :: rest => countDelivered rest

/-- A concrete sum kernel over Nat cells, used to exercise the scalar
aggregate model on closed inputs. -/
def natSumScalarKernel : ScalarKernelM Nat Nat :=
  { consume := fun st b => .ok (st + (b.values.getD 0 []).sum),
    mergeAll := fun sts => .ok sts.sum,
    finalize := fun st => .ok [st] }

/-- A concrete scalar aggregate node: one sum kernel over column 0, two
thread slots, counter fresh, finished future still in its constructed
(resolved) state. -/
def wScalarNode : ScalarAggNodeM Nat Nat :=
  { targetFieldIds := [0],
    kernels := [natSumScalarKernel],
    states := [[0, 0]],
    inputCounter := AtomicCounter.fresh,
    finished := true }

/-- A concrete hash sum kernel over Nat cells. -/
def natSumHashKernel : HashKernelM Nat Nat :=
  { init := .ok 0,
    resize := fun st _ => .ok st,
    consume := fun st col _ => .ok (st + col.sum),
    merge := fun dst src _ => .ok (dst + src),
    finalize := fun st => .ok [st] }

/-- A concrete group-by node right after StartProducing: one key column
(field 0), one sum aggregate (field 1), two thread slots. -/
def wGroupNode : GroupByNodeM Nat Nat :=
  startProducingG
    { keyFieldIds := [0], aggSrcFieldIds := [1],
      aggKernels := [natSumHashKernel],
      localStates := [],
      inputCounter := AtomicCounter.fresh,
      outputCounter := AtomicCounter.fresh,
      finished := true,
      outData := { values := [], length := 0 },
      execChunksize := none } 2

/-- The concrete group-by node with its finished future already resolved,
as after StopProducing cancelled the output counter. -/
def wGroupNodeStopped : GroupByNodeM Nat Nat :=
  { wGroupNode with finished := true }

/-- A concrete group-by node at the start of its output phase: slot 0
holds a grouper with three groups and a summed kernel state, and the
execution context's chunk size is 2. -/
def wGroupNodeOut : GroupByNodeM Nat Nat :=
  { keyFieldIds := [0], aggSrcFieldIds := [1],
    aggKernels := [natSumHashKernel],
    localStates :=
      [{ grouper := some { numKeys := 1, uniqueRows := [[1], [2], [3]] },
         aggStates := [some 6] },
       { grouper := none, aggStates := [] }],
    inputCounter := { count := 1, total := some 1, complete := true },
    outputCounter := AtomicCounter.fresh,
    finished := false,
    outData := { values := [], length := 0 },
    execChunksize := some 2 }

/-- A concrete pool with one pending task and no workers. -/
def wPool : PoolState Nat :=
  { workers := 0, finishedWorkers := 0, pendingTasks := [7],
    desiredCapacity := 1, tasksQueuedOrRunning := 1,
    pleaseShutdown := false, quickShutdown := false }

theorem ParseOMPEnvVar_nonneg (v : Option String) : 0 ≤ ParseOMPEnvVar v := by
  unfold ParseOMPEnvVar
  split
  · exact le_refl 0
  · split
    · exact le_refl 0
    · exact le_max_left 0 _

/-- C1: DefaultCapacity returns the first comma-separated integer of
OMP_NUM_THREADS when that integer is positive and hardware concurrency
otherwise, clamps the result down to OMP_THREAD_LIMIT when that parses to
a positive integer, and falls back to 4 when the result is still zero; in
particular OMP_NUM_THREADS set to 3,9 with the limit unset yields 3, and
with OMP_THREAD_LIMIT set to 2 yields 2. -/
theorem defaultCapacity_spec (hw : Nat) (nt tl : Option String) :
    (DefaultCapacity hw nt tl =
      (let n := ParseOMPEnvVar nt
       let base := if 0 < n then n else (hw : Int)
       let l := ParseOMPEnvVar tl
       let clamped := if 0 < l then min l base else base
       if clamped = 0 then 4 else clamped)) ∧
    DefaultCapacity hw (some "3,9") none = 3 ∧
    DefaultCapacity hw (some "3,9") (some "2") = 2 := by
  refine ⟨?_, ?_, ?_⟩
  · have hn := ParseOMPEnvVar_nonneg nt
    unfold DefaultCapacity
    by_cases h : ParseOMPEnvVar nt = 0
    · simp [h]
    · have hpos : 0 < ParseOMPEnvVar nt := lt_of_le_of_ne hn (Ne.symm h)
      simp [h, hpos]
  · have h1 : ParseOMPEnvVar (some "3,9") = 3 := by decide
    have h0 : ParseOMPEnvVar none = 0 := rfl
    unfold DefaultCapacity
    rw [h1, h0]
    norm_num
  · have h1 : ParseOMPEnvVar (some "3,9") = 3 := by decide
    have h2 : ParseOMPEnvVar (some "2") = 2 := by decide
    unfold DefaultCapacity
    rw [h1, h2]
    norm_num

/-- C2 counterexample: on a fresh pool, set_capacity(0) does not succeed
with a desired capacity clamped to 1; it returns the invalid-argument
error. -/
theorem setCapacity_noClamp_cex :
    PoolState.setCapacity (PoolState.initial Nat) 0 =
      .error { kind := .invalid, msg := "ThreadPool capacity must be > 0" } := by
  rfl

/-- C2 (amended): set_capacity rejects a non-positive requested capacity
with an invalid-argument error instead of clamping it to 1; a positive n
is stored as the desired capacity, workers are launched exactly when
pending tasks exist and n exceeds the current worker count, and all
workers are woken exactly when n is below the current worker count. -/
theorem setCapacity_spec {tau : Type} (s : PoolState tau) (n : Int)
    (hrun : s.pleaseShutdown = false) :
    (n ≤ 0 → s.setCapacity n =
      .error { kind := .invalid, msg := "ThreadPool capacity must be > 0" }) ∧
    (0 < n → ∃ s2 act, s.setCapacity n = .ok (s2, act) ∧
      s2.desiredCapacity = n ∧
      ((∃ k, 0 < k ∧ act = .launched k) ↔
        (s.pendingTasks ≠ [] ∧ (s.workers : Int) < n)) ∧
      (act = .wokeAll ↔ n < (s.workers : Int))) := by
  have hpt : s.pendingTasks ≠ [] ↔ 0 < (s.pendingTasks.length : Int) := by
    rw [← List.length_pos]
    exact_mod_cast Iff.rfl
  constructor
  · intro hle
    unfold PoolState.setCapacity
    rw [hrun]
    simp [hle]
  · intro hpos
    have hif : ¬ n ≤ 0 := not_le.mpr hpos
    unfold PoolState.setCapacity PoolState.collectFinishedWorkers
    rw [hrun]
    simp only [Bool.false_eq_true, if_false, if_neg hif]
    rcases le_total ((s.pendingTasks.length : Int)) (n - (s.workers : Int)) with hab | hab
    · rw [min_eq_left hab]
      by_cases hq : 0 < (s.pendingTasks.length : Int)
      · rw [if_pos hq]
        refine ⟨_, _, rfl, rfl, ?_, ?_⟩
        · constructor
          · intro _
            exact ⟨hpt.mpr hq, by omega⟩
          · intro _
            exact ⟨(s.pendingTasks.length : Int).toNat, by omega, rfl⟩
        · constructor
          · intro hcontra
            exact absurd hcontra (by simp)
          · intro hlt
            omega
      · rw [if_neg hq, if_neg (by omega)]
        refine ⟨_, _, rfl, rfl, ?_, ?_⟩
        · constructor
          · rintro ⟨k, _, hk⟩
            exact absurd hk (by simp)
          · rintro ⟨hne, _⟩
            exact absurd (hpt.mp hne) hq
        · constructor
          · intro hcontra
            exact absurd hcontra (by simp)
          · intro hlt
            omega
    · rw [min_eq_right hab]
      rcases lt_trichotomy (n - (s.workers : Int)) 0 with hb | hb | hb
      · rw [if_neg (by omega), if_pos hb]
        refine ⟨_, _, rfl, rfl, ?_, ?_⟩
        · constructor
          · rintro ⟨k, _, hk⟩
            exact absurd hk (by simp)
          · rintro ⟨_, hlt⟩
            omega
        · exact ⟨fun _ => by omega, fun _ => rfl⟩
      · rw [if_neg (by omega), if_neg (by omega)]
        refine ⟨_, _, rfl, rfl, ?_, ?_⟩
        · constructor
          · rintro ⟨k, _, hk⟩
            exact absurd hk (by simp)
          · rintro ⟨hne, hlt⟩
            have := hpt.mp hne
            omega
        · constructor
          · intro hcontra
            exact absurd hcontra (by simp)
          · intro hlt
            omega
      · rw [if_pos hb]
        refine ⟨_, _, rfl, rfl, ?_, ?_⟩
        · constructor
          · intro _
            refine ⟨hpt.mpr (by omega), by omega⟩
          · intro _
            exact ⟨(n - (s.workers : Int)).toNat, by omega, rfl⟩
        · constructor
          · intro hcontra
            exact absurd hcontra (by simp)
          · intro hlt
            omega

/-- Witness for the amended C2 theorem at a concrete pool and capacity. -/
theorem setCapacity_spec_witness :
    ((3 : Int) ≤ 0 → wPool.setCapacity 3 =
      .error { kind := .invalid, msg := "ThreadPool capacity must be > 0" }) ∧
    (0 < (3 : Int) → ∃ s2 act, wPool.setCapacity 3 = .ok (s2, act) ∧
      s2.desiredCapacity = 3 ∧
      ((∃ k, 0 < k ∧ act = .launched k) ↔
        (wPool.pendingTasks ≠ [] ∧ (wPool.workers : Int) < 3)) ∧
      (act = .wokeAll ↔ (3 : Int) < (wPool.workers : Int))) :=
  setCapacity_spec wPool 3 rfl

/-- C7: submit errors exactly when shutdown has been requested; on success
it appends exactly one task, increments the queued-or-running count by one
and launches at most one worker, doing so exactly when the worker count is
below both the desired capacity and the new queued-or-running count; and a
second call to shutdown returns an error. -/
theorem spawnReal_spec {tau : Type} (s : PoolState tau) (task : tau)
    (wait wait2 : Bool) :
    ((∃ e, s.spawnReal task = .error e) ↔ s.pleaseShutdown = true) ∧
    (s.pleaseShutdown = false → ∃ s2, s.spawnReal task = .ok s2 ∧
      s2.pendingTasks = s.pendingTasks ++ [task] ∧
      s2.tasksQueuedOrRunning = s.tasksQueuedOrRunning + 1 ∧
      s2.workers =
        (if s.workers < s.tasksQueuedOrRunning + 1 ∧
            (s.workers : Int) < s.desiredCapacity
         then s.workers + 1 else s.workers)) ∧
    (∀ s1, s.shutdownPool wait = .ok s1 →
      ∃ e, s1.shutdownPool wait2 = .error e) := by
  refine ⟨?_, ?_, ?_⟩
  · cases hsd : s.pleaseShutdown with
    | true =>
      constructor
      · intro _
        rfl
      · intro _
        exact ⟨_, by unfold PoolState.spawnReal; rw [hsd]; rfl⟩
    | false =>
      constructor
      · rintro ⟨e, he⟩
        revert he
        unfold PoolState.spawnReal
        rw [hsd]
        split <;> intro h <;> simp_all
      · intro h
        exact absurd h (by simp)
  · intro hsd
    unfold PoolState.spawnReal PoolState.collectFinishedWorkers
    rw [hsd]
    simp only [Bool.false_eq_true, if_false]
    split
    · next hcond =>
      exact ⟨_, rfl, rfl, rfl, rfl⟩
    · next hcond =>
      exact ⟨_, rfl, rfl, rfl, rfl⟩
  · intro s1 h1
    unfold PoolState.shutdownPool at h1
    by_cases hsd : s.pleaseShutdown = true
    · rw [if_pos hsd] at h1
      exact absurd h1 (by simp)
    · rw [if_neg hsd] at h1
      injection h1 with h2
      subst h2
      exact ⟨_, rfl⟩

/-- Witness for the C7 theorem at a concrete pool and task. -/
theorem spawnReal_spec_witness :
    ∃ s2, wPool.spawnReal 9 = .ok s2 ∧
      s2.pendingTasks = wPool.pendingTasks ++ [9] ∧
      s2.tasksQueuedOrRunning = wPool.tasksQueuedOrRunning + 1 ∧
      s2.workers =
        (if wPool.workers < wPool.tasksQueuedOrRunning + 1 ∧
            (wPool.workers : Int) < wPool.desiredCapacity
         then wPool.workers + 1 else wPool.workers) :=
  (spawnReal_spec wPool 9 true false).2.1 rfl

theorem sourceLoop_spec {beta : Type} (stopAt : Option Nat)
    (steps : List (GenStep beta)) :
    ∀ k : Nat,
      (sourceLoop stopAt steps k).2 = k + countDelivered (sourceLoop stopAt steps k).1 ∧
      ∀ ev ∈ (sourceLoop stopAt steps k).1,
        (∃ b, ev = .delivered b) ∨ (∃ e, ev = .errorReceived e) := by
  induction steps with
  | nil =>
    intro k
    simp [sourceLoop, countDelivered]
  | cons head rest ih =>
    intro k
    simp only [sourceLoop]
    by_cases hstop : stopObserved stopAt k = true
    · rw [if_pos hstop]
      exact ⟨by simp [countDelivered], by simp⟩
    · rw [if_neg hstop]
      cases head with
      | eos => exact ⟨by simp [countDelivered], by simp⟩
      | genErr e =>
        refine ⟨by simp [countDelivered], ?_⟩
        intro ev hev
        simp only [List.mem_singleton] at hev
        subst hev
        exact Or.inr ⟨e, rfl⟩
      | yield b sok =>
        cases sok with
        | true =>
          have h := ih (k + 1)
          constructor
          · simp only [countDelivered]
            omega
          · intro ev hev
            simp only [List.mem_cons] at hev
            rcases hev with hev | hev
            · exact Or.inl ⟨b, hev⟩
            · exact h.2 ev hev
        | false =>
          refine ⟨by simp [countDelivered], ?_⟩
          intro ev hev
          simp only [List.mem_singleton] at hev
          subst hev
          exact Or.inr ⟨submitFailure, rfl⟩

/-- C8: every termination of the source node's production loop is followed
by an InputFinished call on the single downstream carrying exactly the
number of batches delivered, and then by the resolution on the async task
group's End; any ErrorReceived call happens inside the loop and therefore
before that InputFinished call. -/
theorem sourceNode_termination {beta : Type} (steps : List (GenStep beta))
    (stopAt : Option Nat) :
    ∃ evs n,
      runSource steps stopAt = evs ++ [.inputFinished n, .taskGroupEnd] ∧
      n = countDelivered evs ∧
      ∀ ev ∈ evs, (∃ b, ev = .delivered b) ∨ (∃ e, ev = .errorReceived e) := by
  have h := sourceLoop_spec stopAt steps 0
  refine ⟨(sourceLoop stopAt steps 0).1, (sourceLoop stopAt steps 0).2, rfl, ?_, h.2⟩
  have h1 := h.1
  omega

theorem exceptBind_ok {eps alpha beta : Type} (a : alpha) (f : alpha → Except eps beta) :
    (Except.ok a >>= f) = f a := rfl

theorem exceptBind_err {eps alpha beta : Type} (e : eps) (f : alpha → Except eps beta) :
    ((Except.error e : Except eps alpha) >>= f) = .error e := rfl

theorem AtomicCounter.increment_fired (c : AtomicCounter)
    (h : (c.increment).2 = true) :
    c.complete = false ∧ (c.increment).1.complete = true := by
  unfold AtomicCounter.increment AtomicCounter.doneOnce at h ⊢
  dsimp only at h ⊢
  by_cases ht : c.total = some (c.count + 1)
  · rw [if_pos ht] at h ⊢
    by_cases hc : c.complete = true
    · rw [if_pos hc] at h
      exact absurd h (by simp)
    · rw [if_neg hc]
      exact ⟨by simpa using hc, rfl⟩
  · rw [if_neg ht] at h
    exact absurd h (by simp)

theorem AtomicCounter.increment_notFired (c : AtomicCounter)
    (h : (c.increment).2 = false) :
    (c.increment).1.complete = c.complete := by
  unfold AtomicCounter.increment AtomicCounter.doneOnce at h ⊢
  dsimp only at h ⊢
  by_cases ht : c.total = some (c.count + 1)
  · rw [if_pos ht] at h ⊢
    by_cases hc : c.complete = true
    · rw [if_pos hc]
    · rw [if_neg hc] at h
      exact absurd h (by simp)
  · rw [if_neg ht]

theorem AtomicCounter.setTotal_fired (c : AtomicCounter) (n : Nat)
    (h : (c.setTotal n).2 = true) :
    c.complete = false ∧ (c.setTotal n).1.complete = true := by
  unfold AtomicCounter.setTotal AtomicCounter.doneOnce at h ⊢
  dsimp only at h ⊢
  by_cases ht : c.count = n
  · rw [if_pos ht] at h ⊢
    by_cases hc : c.complete = true
    · rw [if_pos hc] at h
      exact absurd h (by simp)
    · rw [if_neg hc]
      exact ⟨by simpa using hc, rfl⟩
  · rw [if_neg ht] at h
    exact absurd h (by simp)

theorem AtomicCounter.setTotal_notFired (c : AtomicCounter) (n : Nat)
    (h : (c.setTotal n).2 = false) :
    (c.setTotal n).1.complete = c.complete := by
  unfold AtomicCounter.setTotal AtomicCounter.doneOnce at h ⊢
  dsimp only at h ⊢
  by_cases ht : c.count = n
  · rw [if_pos ht] at h ⊢
    by_cases hc : c.complete = true
    · rw [if_pos hc]
    · rw [if_neg hc] at h
      exact absurd h (by simp)
  · rw [if_neg ht]

theorem scalarDoConsume_counter {nu kappa : Type} [Inhabited kappa]
    (n : ScalarAggNodeM nu kappa) (batch : ExecBatchM nu) (t : Nat)
    (n1 : ScalarAggNodeM nu kappa) (h : scalarDoConsume n batch t = .ok n1) :
    n1.inputCounter = n.inputCounter ∧ n1.kernels = n.kernels := by
  unfold scalarDoConsume at h
  split at h
  · exact absurd h (by simp)
  · injection h with h2
    subst h2
    exact ⟨rfl, rfl⟩

theorem scalarStep_shape {nu kappa : Type} [Inhabited kappa]
    (n : ScalarAggNodeM nu kappa) (e : NodeInEvent nu) :
    ((scalarStep n e).2 = [] ∧
      (scalarStep n e).1.inputCounter.complete = n.inputCounter.complete) ∨
    (∃ err, (scalarStep n e).2 = [.errorReceived err]) ∨
    (∃ b, (scalarStep n e).2 = [.inputReceived b, .finishedResolved] ∧
      n.inputCounter.complete = false ∧
      (scalarStep n e).1.inputCounter.complete = true) := by
  cases e with
  | received t batch =>
    unfold scalarStep inputReceivedScalar
    dsimp only
    cases hdc : scalarDoConsume n batch t with
    | error err => exact Or.inr (Or.inl ⟨err, rfl⟩)
    | ok n1 =>
      have hc := (scalarDoConsume_counter n batch t n1 hdc).1
      dsimp only
      cases hfire : (n1.inputCounter.increment).2 with
      | false =>
        rw [if_neg (by simp [hfire])]
        refine Or.inl ⟨rfl, ?_⟩
        have hpre := AtomicCounter.increment_notFired n1.inputCounter hfire
        dsimp only
        rw [hpre, hc]
      | true =>
        rw [if_pos (by simp [hfire])]
        have hf := AtomicCounter.increment_fired n1.inputCounter hfire
        unfold scalarFinishStep
        cases hfin : finishScalar { n1 with inputCounter := (n1.inputCounter.increment).1 } with
        | error err => exact Or.inr (Or.inl ⟨err, rfl⟩)
        | ok b =>
          refine Or.inr (Or.inr ⟨b, rfl, ?_, ?_⟩)
          · rw [← hc]
            exact hf.1
          · exact hf.2
  | finishedTotal total =>
    unfold scalarStep inputFinishedScalar
    dsimp only
    cases hfire : (n.inputCounter.setTotal total).2 with
    | false =>
      rw [if_neg (by simp [hfire])]
      refine Or.inl ⟨rfl, ?_⟩
      exact AtomicCounter.setTotal_notFired n.inputCounter total hfire
    | true =>
      rw [if_pos (by simp [hfire])]
      have hf := AtomicCounter.setTotal_fired n.inputCounter total hfire
      unfold scalarFinishStep
      cases hfin : finishScalar { n with inputCounter := (n.inputCounter.setTotal total).1 } with
      | error err => exact Or.inr (Or.inl ⟨err, rfl⟩)
      | ok b => exact Or.inr (Or.inr ⟨b, rfl, hf.1, hf.2⟩)

theorem countInputReceived_append {nu : Type} (a b : List (OutEvent nu)) :
    countInputReceived (a ++ b) = countInputReceived a + countInputReceived b := by
  induction a with
  | nil => simp [countInputReceived]
  | cons x xs ih =>
    cases x <;> simp [countInputReceived, ih] <;> omega

theorem runScalar_count {nu kappa : Type} [Inhabited kappa]
    (es : List (NodeInEvent nu)) :
    ∀ n : ScalarAggNodeM nu kappa,
      (∀ ev ∈ (runScalar n es).2, isErrorEvent ev = false) →
      countInputReceived (runScalar n es).2 +
          (if n.inputCounter.complete then 1 else 0) =
        (if (runScalar n es).1.inputCounter.complete then 1 else 0) := by
  induction es with
  | nil =>
    intro n h
    simp [runScalar, countInputReceived]
  | cons e es ih =>
    intro n h
    have hdec2 : (runScalar n (e :: es)).2 =
        (scalarStep n e).2 ++ (runScalar (scalarStep n e).1 es).2 := rfl
    have hdec1 : (runScalar n (e :: es)).1 = (runScalar (scalarStep n e).1 es).1 := rfl
    rw [hdec2] at h ⊢
    rw [hdec1]
    have hrest : ∀ ev ∈ (runScalar (scalarStep n e).1 es).2, isErrorEvent ev = false :=
      fun ev hev => h ev (List.mem_append_right _ hev)
    have hih := ih (scalarStep n e).1 hrest
    rcases scalarStep_shape n e with ⟨h1, h2⟩ | ⟨err, h1⟩ | ⟨b, h1, h2, h3⟩
    · rw [h1, List.nil_append, ← h2] at *
      rw [hih]
    · exfalso
      have := h (.errorReceived err) (by rw [h1]; exact List.mem_append_left _ (by simp))
      simp [isErrorEvent] at this
    · rw [h1, countInputReceived_append, h2, ← hih, h3]
      simp [countInputReceived]
      omega

theorem runScalar_dRF {nu kappa : Type} [Inhabited kappa]
    (es : List (NodeInEvent nu)) :
    ∀ n : ScalarAggNodeM nu kappa,
      deliveryResolvesFinished (runScalar n es).2 = true := by
  induction es with
  | nil => intro n; rfl
  | cons e es ih =>
    intro n
    have hdec2 : (runScalar n (e :: es)).2 =
        (scalarStep n e).2 ++ (runScalar (scalarStep n e).1 es).2 := rfl
    rw [hdec2]
    rcases scalarStep_shape n e with ⟨h1, _⟩ | ⟨err, h1⟩ | ⟨b, h1, _, _⟩
    · rw [h1, List.nil_append]
      exact ih _
    · rw [h1]
      simpa [deliveryResolvesFinished] using ih _
    · rw [h1]
      simpa [deliveryResolvesFinished] using ih _

theorem scalarFinishValues_spec {nu kappa : Type} :
    ∀ (ks : List (ScalarKernelM nu kappa)) (sts : List (List kappa))
      (vs : List (DatumM nu)),
      scalarFinishValues ks sts = .ok vs →
      vs.length = ks.length ∧
      ∀ i (h : i < ks.length), ∃ merged,
        (ks.get ⟨i, h⟩).mergeAll (sts.getD i []) = .ok merged ∧
        (ks.get ⟨i, h⟩).finalize merged = .ok (vs.getD i []) := by
  intro ks
  induction ks with
  | nil =>
    intro sts vs h
    unfold scalarFinishValues at h
    injection h with h2
    subst h2
    exact ⟨rfl, fun i hi => absurd hi (by simp)⟩
  | cons k ks ih =>
    intro sts vs h
    cases sts with
    | nil => exact absurd h (by simp [scalarFinishValues])
    | cons st sts =>
      unfold scalarFinishValues at h
      cases hm : k.mergeAll st with
      | error e => rw [hm, exceptBind_err] at h; exact absurd h (by simp)
      | ok merged =>
        rw [hm, exceptBind_ok] at h
        cases hf : k.finalize merged with
        | error e => rw [hf, exceptBind_err] at h; exact absurd h (by simp)
        | ok v =>
          rw [hf, exceptBind_ok] at h
          cases hr : scalarFinishValues ks sts with
          | error e => rw [hr, exceptBind_err] at h; exact absurd h (by simp)
          | ok vtail =>
            rw [hr, exceptBind_ok] at h
            injection h with h2
            subst h2
            have htail := ih sts vtail hr
            constructor
            · simp [htail.1]
            · intro i hi
              cases i with
              | zero => exact ⟨merged, hm, hf⟩
              | succ j =>
                have hj : j < ks.length := by simpa using hi
                have := htail.2 j hj
                simpa using this

/-- C3: StartProducing announces input_finished(total=1) on the single
output before returning; over an error-free run the node delivers exactly
one batch downstream, exactly when the input counter completes; every
delivered batch is immediately followed by the resolution of the finished
future; and the batch built by Finish has one row whose i-th value is the
finalized result of merging all per-thread states of kernel i. -/
theorem scalarAgg_singleBatch {nu kappa : Type} [Inhabited kappa]
    (n0 : ScalarAggNodeM nu kappa) (es : List (NodeInEvent nu)) :
    ((startProducingScalar n0).2 = [.inputFinished 1]) ∧
    (n0.inputCounter.complete = false →
      (∀ ev ∈ (runScalar (startProducingScalar n0).1 es).2, isErrorEvent ev = false) →
      countInputReceived (runScalar (startProducingScalar n0).1 es).2 =
        (if (runScalar (startProducingScalar n0).1 es).1.inputCounter.complete
         then 1 else 0)) ∧
    deliveryResolvesFinished (runScalar (startProducingScalar n0).1 es).2 = true ∧
    (∀ (m : ScalarAggNodeM nu kappa) (b : ExecBatchM nu),
      finishScalar m = .ok b →
      b.length = 1 ∧ b.values.length = m.kernels.length ∧
      ∀ i (h : i < m.kernels.length), ∃ merged,
        (m.kernels.get ⟨i, h⟩).mergeAll (m.states.getD i []) = .ok merged ∧
        (m.kernels.get ⟨i, h⟩).finalize merged = .ok (b.values.getD i [])) := by
  refine ⟨rfl, ?_, runScalar_dRF es _, ?_⟩
  · intro hc herr
    have h := runScalar_count es (startProducingScalar n0).1 herr
    rw [show (startProducingScalar n0).1.inputCounter = n0.inputCounter from rfl, hc] at h
    simpa using h
  · intro m b hb
    unfold finishScalar at hb
    cases hv : scalarFinishValues m.kernels m.states with
    | error e => rw [hv] at hb; exact absurd hb (by simp)
    | ok vs =>
      rw [hv] at hb
      injection hb with hb2
      subst hb2
      have hs := scalarFinishValues_spec m.kernels m.states vs hv
      exact ⟨rfl, hs.1, hs.2⟩

/-- Witness for the C3 theorem: a concrete error-free run (one input batch
on thread 0, then the input total of 1) delivers exactly one batch. -/
theorem scalarAgg_singleBatch_witness :
    countInputReceived (runScalar (startProducingScalar wScalarNode).1
      [.received 0 { values := [[1, 2, 3, 4]], length := 4 },
       .finishedTotal 1]).2 = 1 := by
  have h := scalarAgg_singleBatch wScalarNode
    [.received 0 { values := [[1, 2, 3, 4]], length := 4 }, .finishedTotal 1]
  have h2 := h.2.1 rfl (by decide)
  rw [h2]
  decide

/-- C6: a batch arriving on a thread whose index is at or beyond the size
of the per-thread state vector makes Consume fail with an index error
before touching any state, and InputReceived forwards the failure
downstream as a single ErrorReceived call, leaving the node, in
particular its input counter and thread slots, unchanged. -/
theorem groupBy_outOfRange {nu kappa : Type} [Inhabited nu] [DecidableEq nu]
    (n : GroupByNodeM nu kappa) (t : Nat) (batch : ExecBatchM nu)
    (hrun : n.finished = false) (ht : n.localStates.length ≤ t) :
    consumeG n t batch =
      .error { kind := .indexErr, msg := "thread index is out of range" } ∧
    inputReceivedG n t batch =
      (n, [.errorReceived { kind := .indexErr, msg := "thread index is out of range" }]) := by
  have hcons : consumeG n t batch =
      .error { kind := .indexErr, msg := "thread index is out of range" } := by
    unfold consumeG
    rw [if_pos ht]
  refine ⟨hcons, ?_⟩
  unfold inputReceivedG
  rw [hrun]
  simp only [Bool.false_eq_true, if_false]
  rw [hcons]

/-- Witness for the C6 theorem on the concrete two-slot node and thread
index 5. -/
theorem groupBy_outOfRange_witness :
    consumeG wGroupNode 5 { values := [[1], [2]], length := 1 } =
      .error { kind := .indexErr, msg := "thread index is out of range" } ∧
    inputReceivedG wGroupNode 5 { values := [[1], [2]], length := 1 } =
      (wGroupNode,
       [.errorReceived { kind := .indexErr, msg := "thread index is out of range" }]) :=
  groupBy_outOfRange wGroupNode 5 { values := [[1], [2]], length := 1 } rfl (by decide)

/-- C9: once the finished future has resolved, every further InputReceived
and InputFinished call returns immediately: nothing is consumed, no
per-thread grouper or kernel state changes, the input counter is neither
incremented nor set, and no downstream call is made. -/
theorem groupBy_finishedSticky {nu kappa : Type} [Inhabited nu] [DecidableEq nu]
    (n : GroupByNodeM nu kappa) (t : Nat) (batch : ExecBatchM nu) (total : Nat)
    (hfin : n.finished = true) :
    inputReceivedG n t batch = (n, []) ∧ inputFinishedG n total = (n, []) := by
  constructor
  · unfold inputReceivedG
    simp [hfin]
  · unfold inputFinishedG
    simp [hfin]

/-- Witness for the C9 theorem on the concrete stopped node. -/
theorem groupBy_finishedSticky_witness :
    inputReceivedG wGroupNodeStopped 0 { values := [[1], [2]], length := 1 } =
      (wGroupNodeStopped, []) ∧
    inputFinishedG wGroupNodeStopped 3 = (wGroupNodeStopped, []) :=
  groupBy_finishedSticky wGroupNodeStopped 0 { values := [[1], [2]], length := 1 } 3 rfl

theorem mergeSlots_allNone {nu kappa : Type} [Inhabited nu] [DecidableEq nu]
    (kernels : List (HashKernelM nu kappa)) (state0 : ThreadLocalStateM nu kappa) :
    ∀ slots : List (ThreadLocalStateM nu kappa),
      (∀ s ∈ slots, s.grouper = none) →
      mergeSlots kernels state0 slots = .ok (state0, slots) := by
  intro slots
  induction slots with
  | nil => intro h; rfl
  | cons s rest ih =>
    intro h
    unfold mergeSlots
    rw [h s (by simp)]
    rw [ih (fun x hx => h x (by simp [hx])), exceptBind_ok]

theorem ceilDivNat_zero (bs : Nat) : ceilDivNat 0 bs = 0 := by
  unfold ceilDivNat
  cases bs with
  | zero => rfl
  | succ b => exact Nat.div_eq_of_lt (by omega)

/-- C10: when the output phase is reached with no batch ever received,
Merge is a no-op and Finalize constructs thread slot 0's grouper and
kernel states itself and therefore succeeds: the finalized data is the
zero-row batch of the finalized fresh kernel states followed by the fresh
grouper's empty key columns, the output total is announced as zero, and
the finished future resolves at that moment. -/
theorem groupBy_emptyInput {nu kappa : Type} [Inhabited nu] [DecidableEq nu]
    (n : GroupByNodeM nu kappa)
    (hne : n.localStates ≠ [])
    (hslots : ∀ s ∈ n.localStates, s.grouper = none)
    (hcnt : n.outputCounter = AtomicCounter.fresh)
    (sts : List kappa)
    (hinit : n.aggKernels.mapM (fun k => k.init) = .ok sts)
    (r : List (DatumM nu) × List (Option kappa))
    (hfk : finalizeKernels n.aggKernels (sts.map some) = .ok r) :
    mergeG n = .ok n ∧
    ∃ n2, finalizeG n = .ok n2 ∧
      n2.outData.length = 0 ∧
      n2.outData.values =
        r.1 ++ (GrouperM.make nu n.keyFieldIds.length).getUniques.values ∧
      n2.outputCounter.total = some 0 ∧
      n2.finished = true := by
  obtain ⟨s0, rest, hl⟩ := List.exists_cons_of_ne_nil hne
  have hs0 : s0.grouper = none := hslots s0 (by rw [hl]; simp)
  have h1 : initLocalStateIfNeeded n s0 =
      .ok { grouper := some (GrouperM.make nu n.keyFieldIds.length),
            aggStates := sts.map some } := by
    unfold initLocalStateIfNeeded
    rw [hs0, hinit, exceptBind_ok]
  constructor
  · unfold mergeG
    rw [hl]
    dsimp only
    rw [mergeSlots_allNone n.aggKernels s0 rest
      (fun x hx => hslots x (by rw [hl]; simp [hx])), exceptBind_ok]
    rw [← hl]
  · unfold finalizeG
    rw [hl]
    dsimp only
    rw [h1, exceptBind_ok]
    dsimp only
    rw [hfk, exceptBind_ok]
    rw [hcnt]
    refine ⟨_, rfl, rfl, rfl, ?_, ?_⟩
    · have : ceilDivNat (GrouperM.make nu n.keyFieldIds.length).numGroups
          (outputBatchSize n.execChunksize).toNat = 0 := ceilDivNat_zero _
      rw [this]
      rfl
    · have : ceilDivNat (GrouperM.make nu n.keyFieldIds.length).numGroups
          (outputBatchSize n.execChunksize).toNat = 0 := ceilDivNat_zero _
      rw [this]
      simp [AtomicCounter.setTotal, AtomicCounter.doneOnce, AtomicCounter.fresh]

/-- Witness for the C10 theorem on the concrete fresh two-slot node. -/
theorem groupBy_emptyInput_witness :
    mergeG wGroupNode = .ok wGroupNode ∧
    ∃ n2, finalizeG wGroupNode = .ok n2 ∧
      n2.outData.length = 0 ∧
      n2.outData.values =
        ([[0]] : List (DatumM Nat)) ++
          (GrouperM.make Nat wGroupNode.keyFieldIds.length).getUniques.values ∧
      n2.outputCounter.total = some 0 ∧
      n2.finished = true :=
  groupBy_emptyInput wGroupNode (by decide) (by decide) rfl [0] rfl
    ([[0]], [none]) rfl

theorem getD_append_left {alpha : Type} :
    ∀ (xs ys : List alpha) (i : Nat) (d : alpha), i < xs.length →
      (xs ++ ys).getD i d = xs.getD i d := by
  intro xs
  induction xs with
  | nil =>
    intro ys i d h
    simp at h
  | cons x xs ih =>
    intro ys i d h
    cases i with
    | zero => rfl
    | succ j => exact ih ys j d (by simpa using h)

theorem getD_append_right {alpha : Type} :
    ∀ (xs ys : List alpha) (i : Nat) (d : alpha),
      (xs ++ ys).getD (xs.length + i) d = ys.getD i d := by
  intro xs
  induction xs with
  | nil => intro ys i d; simp
  | cons x xs ih =>
    intro ys i d
    rw [show (x :: xs).length + i = (xs.length + i) + 1 from by simp; omega]
    exact ih ys i d

theorem initLocalState_numKeys {nu kappa : Type}
    (n : GroupByNodeM nu kappa) (s0 state0 : ThreadLocalStateM nu kappa)
    (h : initLocalStateIfNeeded n s0 = .ok state0)
    (hk : ∀ g, s0.grouper = some g → g.numKeys = n.keyFieldIds.length) :
    ∀ g, state0.grouper = some g → g.numKeys = n.keyFieldIds.length := by
  unfold initLocalStateIfNeeded at h
  split at h
  · next g heq =>
    injection h with h2
    subst h2
    exact hk
  · next heq =>
    cases hmi : n.aggKernels.mapM (fun k => k.init) with
    | error e => rw [hmi, exceptBind_err] at h; exact absurd h (by simp)
    | ok sts =>
      rw [hmi, exceptBind_ok] at h
      injection h with h2
      subst h2
      intro g hg
      injection hg with hg2
      subst hg2
      rfl

theorem getD_zipWithName {phi : Type} [Inhabited phi] :
    ∀ (fields : List (FieldM phi)) (names : List String) (i : Nat),
      i < fields.length → fields.length = names.length →
      ((fields.zip names).map (fun p => p.1.withName p.2)).getD i default =
        (fields.getD i default).withName (names.getD i "") := by
  intro fields
  induction fields with
  | nil =>
    intro names i h _
    simp at h
  | cons f fs ih =>
    intro names i h hlen
    cases names with
    | nil => simp at hlen
    | cons nm nms =>
      cases i with
      | zero => rfl
      | succ j => exact ih nms j (by simpa using h) (by simpa using hlen)

theorem getD_keyFields {phi : Type} [Inhabited phi] :
    ∀ (ids : List Nat) (schema : List (FieldM phi)) (j : Nat), j < ids.length →
      (ids.map (fun id => schema.getD id default)).getD j default =
        schema.getD (ids.getD j 0) default := by
  intro ids
  induction ids with
  | nil =>
    intro schema j h
    simp at h
  | cons id ids ih =>
    intro schema j h
    cases j with
    | zero => rfl
    | succ j => exact ih schema j (by simpa using h)

theorem finalizeKernels_length {nu kappa : Type} :
    ∀ (ks : List (HashKernelM nu kappa)) (sts : List (Option kappa))
      (r : List (DatumM nu) × List (Option kappa)),
      finalizeKernels ks sts = .ok r → r.1.length = ks.length := by
  intro ks
  induction ks with
  | nil =>
    intro sts r h
    unfold finalizeKernels at h
    injection h with h2
    subst h2
    rfl
  | cons k ks ih =>
    intro sts r h
    cases sts with
    | nil => exact absurd h (by simp [finalizeKernels])
    | cons stOpt sts =>
      unfold finalizeKernels at h
      cases stOpt with
      | none => exact absurd h (by simp)
      | some st =>
        dsimp only at h
        cases hv : k.finalize st with
        | error e => rw [hv, exceptBind_err] at h; exact absurd h (by simp)
        | ok v =>
          rw [hv, exceptBind_ok] at h
          cases hr : finalizeKernels ks sts with
          | error e => rw [hr, exceptBind_err] at h; exact absurd h (by simp)
          | ok rtail =>
            rw [hr, exceptBind_ok] at h
            injection h with h2
            subst h2
            simpa using ih sts rtail hr

theorem rowsToColumns_length {nu : Type} [Inhabited nu] (k : Nat)
    (rows : List (List nu)) : (rowsToColumns k rows).length = k := by
  simp [rowsToColumns]

theorem finalizeKernels_spec {nu kappa : Type} :
    ∀ (ks : List (HashKernelM nu kappa)) (sts : List (Option kappa))
      (r : List (DatumM nu) × List (Option kappa)),
      finalizeKernels ks sts = .ok r →
      r.1.length = ks.length ∧
      ∀ i (h : i < ks.length), ∃ st,
        sts.getD i none = some st ∧
        (ks.get ⟨i, h⟩).finalize st = .ok (r.1.getD i []) := by
  intro ks
  induction ks with
  | nil =>
    intro sts r h
    unfold finalizeKernels at h
    injection h with h2
    subst h2
    exact ⟨rfl, fun i hi => absurd hi (by simp)⟩
  | cons k ks ih =>
    intro sts r h
    cases sts with
    | nil => exact absurd h (by simp [finalizeKernels])
    | cons stOpt sts =>
      unfold finalizeKernels at h
      cases stOpt with
      | none => exact absurd h (by simp)
      | some st =>
        dsimp only at h
        cases hv : k.finalize st with
        | error e => rw [hv, exceptBind_err] at h; exact absurd h (by simp)
        | ok v =>
          rw [hv, exceptBind_ok] at h
          cases hr : finalizeKernels ks sts with
          | error e => rw [hr, exceptBind_err] at h; exact absurd h (by simp)
          | ok rtail =>
            rw [hr, exceptBind_ok] at h
            injection h with h2
            subst h2
            obtain ⟨hlen2, hidx⟩ := ih sts rtail hr
            constructor
            · simpa using hlen2
            · intro i hi
              cases i with
              | zero => exact ⟨st, rfl, hv⟩
              | succ j =>
                have hj : j < ks.length := by simpa using hi
                obtain ⟨st2, hst2, hf2⟩ := hidx j hj
                exact ⟨st2, hst2, hf2⟩

/-- C5: the declared output schema of the group-by node and every
finalized output batch both place the N aggregate result columns first
and the K key columns after them, with matching index semantics: schema
position i holds aggregate i renamed to its output name and schema
position N + j holds key j, while in the finalized data value position i
is the finalize output of kernel i on slot 0's i-th state and value
position N + j is the j-th unique-key column of slot 0's grouper. -/
theorem groupBy_outputOrder {nu kappa phi : Type}
    [Inhabited nu] [DecidableEq nu] [Inhabited phi]
    (aggResultFields : List (FieldM phi)) (fieldNames : List String)
    (inputSchema : List (FieldM phi)) (keyFieldIds : List Nat)
    (hlen : aggResultFields.length = fieldNames.length)
    (n n2 : GroupByNodeM nu kappa)
    (hfin : finalizeG n = .ok n2)
    (hkeys : ∀ g, (n.localStates.headD { grouper := none, aggStates := [] }).grouper
        = some g → g.numKeys = n.keyFieldIds.length) :
    ((groupByOutputFields aggResultFields fieldNames inputSchema keyFieldIds).length =
        aggResultFields.length + keyFieldIds.length ∧
      (∀ i, i < aggResultFields.length →
        (groupByOutputFields aggResultFields fieldNames inputSchema keyFieldIds).getD i default =
          (aggResultFields.getD i default).withName (fieldNames.getD i "")) ∧
      (∀ j, j < keyFieldIds.length →
        (groupByOutputFields aggResultFields fieldNames inputSchema keyFieldIds).getD
            (aggResultFields.length + j) default =
          inputSchema.getD (keyFieldIds.getD j 0) default)) ∧
    (∃ state0 g0,
      initLocalStateIfNeeded n
          (n.localStates.headD { grouper := none, aggStates := [] }) = .ok state0 ∧
      state0.grouper = some g0 ∧
      n2.outData.length = g0.numGroups ∧
      n2.outData.values.length = n.aggKernels.length + n.keyFieldIds.length ∧
      (∀ i (h : i < n.aggKernels.length), ∃ st,
        state0.aggStates.getD i none = some st ∧
        (n.aggKernels.get ⟨i, h⟩).finalize st = .ok (n2.outData.values.getD i [])) ∧
      (∀ j, j < n.keyFieldIds.length →
        n2.outData.values.getD (n.aggKernels.length + j) [] =
          g0.getUniques.values.getD j [])) := by
  have hmlen : ((aggResultFields.zip fieldNames).map (fun p => p.1.withName p.2)).length =
      aggResultFields.length := by
    simp [hlen]
  constructor
  · refine ⟨?_, ?_, ?_⟩
    · simp [groupByOutputFields, hlen]
    · intro i hi
      unfold groupByOutputFields
      rw [getD_append_left _ _ i default (by rw [hmlen]; exact hi)]
      exact getD_zipWithName aggResultFields fieldNames i hi hlen
    · intro j hj
      unfold groupByOutputFields
      rw [← hmlen, getD_append_right]
      exact getD_keyFields keyFieldIds inputSchema j hj
  · cases hl : n.localStates with
    | nil =>
      unfold finalizeG at hfin
      rw [hl] at hfin
      exact absurd hfin (by simp)
    | cons s0 rest =>
      have hhead : n.localStates.headD { grouper := none, aggStates := [] } = s0 := by
        rw [hl]
        rfl
      unfold finalizeG at hfin
      rw [hl] at hfin
      dsimp only at hfin
      cases hinit : initLocalStateIfNeeded n s0 with
      | error e => rw [hinit, exceptBind_err] at hfin; exact absurd hfin (by simp)
      | ok state0 =>
        have hnum := initLocalState_numKeys n s0 state0 hinit
          (fun g hg => hkeys g (by rw [hhead]; exact hg))
        rw [hinit, exceptBind_ok] at hfin
        split at hfin
        · exact absurd hfin (by simp)
        · next g0 hg0 =>
          cases hfk : finalizeKernels n.aggKernels state0.aggStates with
          | error e => rw [hfk, exceptBind_err] at hfin; exact absurd hfin (by simp)
          | ok r =>
            rw [hfk, exceptBind_ok] at hfin
            injection hfin with h2
            subst h2
            obtain ⟨hrlen, hridx⟩ := finalizeKernels_spec n.aggKernels state0.aggStates r hfk
            have hulen : g0.getUniques.values.length = n.keyFieldIds.length := by
              simp [GrouperM.getUniques, rowsToColumns_length, hnum g0 hg0]
            refine ⟨state0, g0, hinit, hg0, rfl, ?_, ?_, ?_⟩
            · show (r.1 ++ g0.getUniques.values).length =
                n.aggKernels.length + n.keyFieldIds.length
              rw [List.length_append, hrlen, hulen]
            · intro i h
              obtain ⟨st, hst, hfin2⟩ := hridx i h
              refine ⟨st, hst, ?_⟩
              show (n.aggKernels.get ⟨i, h⟩).finalize st =
                .ok ((r.1 ++ g0.getUniques.values).getD i [])
              rw [getD_append_left _ _ i [] (by rw [hrlen]; exact h)]
              exact hfin2
            · intro j hj
              show (r.1 ++ g0.getUniques.values).getD (n.aggKernels.length + j) [] =
                g0.getUniques.values.getD j []
              rw [show n.aggKernels.length = r.1.length from hrlen.symm]
              exact getD_append_right r.1 g0.getUniques.values j []

theorem except_toOption_ok {eps alpha : Type} (x : Except eps alpha) (a : alpha)
    (h : x.toOption = some a) : x = .ok a := by
  cases x with
  | ok b => simpa [Except.toOption] using h
  | error e => simp [Except.toOption] at h

/-- Witness for the C5 theorem on a concrete schema and the concrete
output-phase node. -/
theorem groupBy_outputOrder_witness :
    ∃ n2, finalizeG wGroupNodeOut = .ok n2 ∧
      ((groupByOutputFields [{ name := "agg", ty := 0 }] ["total"]
          [{ name := "k", ty := 0 }, { name := "v", ty := (1 : Nat) }] [0]).length = 2 ∧
        ∃ state0 g0,
          initLocalStateIfNeeded wGroupNodeOut
              (wGroupNodeOut.localStates.headD { grouper := none, aggStates := [] }) =
            .ok state0 ∧
          state0.grouper = some g0 ∧
          n2.outData.values.length =
            wGroupNodeOut.aggKernels.length + wGroupNodeOut.keyFieldIds.length) := by
  have hok : (finalizeG wGroupNodeOut).toOption.isSome = true := by decide
  obtain ⟨n2, hmem⟩ := Option.isSome_iff_exists.mp hok
  have hfin := except_toOption_ok _ _ hmem
  have h := groupBy_outputOrder [{ name := "agg", ty := (0 : Nat) }] ["total"]
    [{ name := "k", ty := 0 }, { name := "v", ty := (1 : Nat) }] [0] rfl
    wGroupNodeOut n2 hfin (by decide)
  obtain ⟨state0, g0, hi1, hi2, _, hi4, _, _⟩ := h.2
  exact ⟨n2, hfin, h.1.1, state0, g0, hi1, hi2, hi4⟩

/-- C4 counterexample: exec_chunksize = 2^31 is non-negative, yet
output_batch_size is 32768 rather than 2^31, because the int64 value is
truncated to the C int width before the sign test. -/
theorem outputBatchSize_cex :
    (0 : Int) ≤ 2147483648 ∧
    outputBatchSize (some 2147483648) = 32768 ∧
    outputBatchSize (some 2147483648) ≠ 2147483648 := by
  refine ⟨by norm_num, by decide, by decide⟩

theorem increment_shape (c : AtomicCounter) (T : Nat)
    (h2 : c.complete = false) (h3 : c.total = some T) :
    (T = c.count + 1 →
      c.increment = ({ count := c.count + 1, total := some T, complete := true }, true)) ∧
    (T ≠ c.count + 1 →
      c.increment = ({ count := c.count + 1, total := some T, complete := false }, false)) := by
  obtain ⟨cnt, tot, cmp⟩ := c
  dsimp only at h2 h3 ⊢
  subst h2
  subst h3
  constructor
  · intro hT
    subst hT
    simp [AtomicCounter.increment, AtomicCounter.doneOnce]
  · intro hT
    simp [AtomicCounter.increment, AtomicCounter.doneOnce, hT]

theorem setTotal_fresh (T : Nat) :
    (T = 0 → AtomicCounter.fresh.setTotal T =
      ({ count := 0, total := some T, complete := true }, true)) ∧
    (T ≠ 0 → AtomicCounter.fresh.setTotal T =
      ({ count := 0, total := some T, complete := false }, false)) := by
  constructor
  · intro h
    subst h
    rfl
  · intro h
    simp [AtomicCounter.fresh, AtomicCounter.setTotal, AtomicCounter.doneOnce, Ne.symm h]

theorem increment_total (c : AtomicCounter) : (c.increment).1.total = c.total := by
  unfold AtomicCounter.increment AtomicCounter.doneOnce
  dsimp only
  split
  · split
    · rfl
    · rfl
  · rfl

theorem sliceBatch_length_le {nu : Type} (b : ExecBatchM nu) (off len : Nat) :
    (sliceBatch b off len).length ≤ len := by
  unfold sliceBatch
  exact Nat.min_le_left _ _

theorem outputNthBatch_fired {nu kappa : Type} (m : GroupByNodeM nu kappa) (i T : Nat)
    (h1 : m.finished = false) (h2 : m.outputCounter.complete = false)
    (h3 : m.outputCounter.total = some T) (hT : T = m.outputCounter.count + 1) :
    outputNthBatch m i =
      ({ m with
          outputCounter :=
            { count := m.outputCounter.count + 1, total := some T, complete := true },
          finished := true },
       [.inputReceived (sliceBatch m.outData ((outputBatchSize m.execChunksize).toNat * i)
          (outputBatchSize m.execChunksize).toNat),
        .finishedResolved]) := by
  unfold outputNthBatch
  rw [h1]
  simp only [Bool.false_eq_true, if_false]
  rw [(increment_shape m.outputCounter T h2 h3).1 hT]
  rfl

theorem outputNthBatch_notFired {nu kappa : Type} (m : GroupByNodeM nu kappa) (i T : Nat)
    (h1 : m.finished = false) (h2 : m.outputCounter.complete = false)
    (h3 : m.outputCounter.total = some T) (hT : T ≠ m.outputCounter.count + 1) :
    outputNthBatch m i =
      ({ m with
          outputCounter :=
            { count := m.outputCounter.count + 1, total := some T, complete := false } },
       [.inputReceived (sliceBatch m.outData ((outputBatchSize m.execChunksize).toNat * i)
          (outputBatchSize m.execChunksize).toNat)]) := by
  unfold outputNthBatch
  rw [h1]
  simp only [Bool.false_eq_true, if_false]
  rw [(increment_shape m.outputCounter T h2 h3).2 hT]
  rfl

theorem emitChunks_spec {nu kappa : Type} (bs : Nat) :
    ∀ (rem i : Nat) (m : GroupByNodeM nu kappa) (T : Nat),
      m.finished = false →
      m.outputCounter.complete = false →
      m.outputCounter.total = some T →
      m.outputCounter.count + rem = T →
      (outputBatchSize m.execChunksize).toNat = bs →
      countInputReceived (emitChunks m i rem).2 = rem ∧
      deliveredLengthsLe bs (emitChunks m i rem).2 = true ∧
      (0 < rem → (emitChunks m i rem).1.finished = true) := by
  intro rem
  induction rem with
  | zero =>
    intro i m T h1 h2 h3 h4 h5
    exact ⟨rfl, rfl, fun h => absurd h (by omega)⟩
  | succ rem ih =>
    intro i m T h1 h2 h3 h4 h5
    have hdec : emitChunks m i (rem + 1) =
        ((emitChunks (outputNthBatch m i).1 (i + 1) rem).1,
         (outputNthBatch m i).2 ++ (emitChunks (outputNthBatch m i).1 (i + 1) rem).2) := rfl
    have hble := sliceBatch_length_le m.outData
      ((outputBatchSize m.execChunksize).toNat * i) ((outputBatchSize m.execChunksize).toNat)
    rw [h5] at hble
    cases rem with
    | zero =>
      have hT : T = m.outputCounter.count + 1 := by omega
      have hstep := outputNthBatch_fired m i T h1 h2 h3 hT
      rw [hdec, hstep]
      refine ⟨by simp [countInputReceived], ?_, fun _ => rfl⟩
      simp [deliveredLengthsLe, hble, h5]
    | succ rem2 =>
      have hT : T ≠ m.outputCounter.count + 1 := by omega
      have hstep := outputNthBatch_notFired m i T h1 h2 h3 hT
      rw [hdec, hstep]
      have hih := ih (i + 1)
        { m with outputCounter :=
            { count := m.outputCounter.count + 1, total := some T, complete := false } }
        T h1 rfl rfl (by dsimp only; omega) h5
      refine ⟨?_, ?_, fun _ => hih.2.2 (by omega)⟩
      · simp [countInputReceived, hih.1]
      · simp [deliveredLengthsLe, hble, hih.2.1, h5]

theorem mergeG_preserves {nu kappa : Type} [Inhabited nu] [DecidableEq nu]
    (n n1 : GroupByNodeM nu kappa) (h : mergeG n = .ok n1) :
    n1.outputCounter = n.outputCounter ∧ n1.finished = n.finished ∧
    n1.execChunksize = n.execChunksize := by
  cases hl : n.localStates with
  | nil =>
    unfold mergeG at h
    rw [hl] at h
    exact absurd h (by simp)
  | cons state0 rest =>
    unfold mergeG at h
    rw [hl] at h
    dsimp only at h
    cases hms : mergeSlots n.aggKernels state0 rest with
    | error e => rw [hms, exceptBind_err] at h; exact absurd h (by simp)
    | ok r =>
      rw [hms, exceptBind_ok] at h
      injection h with h2
      subst h2
      exact ⟨rfl, rfl, rfl⟩

theorem finalizeG_counter {nu kappa : Type} [Inhabited nu] [DecidableEq nu]
    (n1 nf : GroupByNodeM nu kappa) (h : finalizeG n1 = .ok nf)
    (hcnt : n1.outputCounter = AtomicCounter.fresh) (hfin : n1.finished = false) :
    nf.execChunksize = n1.execChunksize ∧
    nf.outputCounter.total =
      some (ceilDivNat nf.outData.length (outputBatchSize n1.execChunksize).toNat) ∧
    nf.outputCounter.count = 0 ∧
    (ceilDivNat nf.outData.length (outputBatchSize n1.execChunksize).toNat = 0 →
      nf.outputCounter.complete = true ∧ nf.finished = true) ∧
    (ceilDivNat nf.outData.length (outputBatchSize n1.execChunksize).toNat ≠ 0 →
      nf.outputCounter.complete = false ∧ nf.finished = false) := by
  cases hl : n1.localStates with
  | nil =>
    unfold finalizeG at h
    rw [hl] at h
    exact absurd h (by simp)
  | cons state0 rest =>
    unfold finalizeG at h
    rw [hl] at h
    dsimp only at h
    cases hinit : initLocalStateIfNeeded n1 state0 with
    | error e => rw [hinit, exceptBind_err] at h; exact absurd h (by simp)
    | ok s0i =>
      rw [hinit, exceptBind_ok] at h
      split at h
      · exact absurd h (by simp)
      · next g0 hg0 =>
        cases hfk : finalizeKernels n1.aggKernels s0i.aggStates with
        | error e => rw [hfk, exceptBind_err] at h; exact absurd h (by simp)
        | ok r =>
          rw [hfk, exceptBind_ok] at h
          injection h with h2
          subst h2
          rw [hcnt, hfin]
          by_cases hz : ceilDivNat g0.numGroups (outputBatchSize n1.execChunksize).toNat = 0
          · rw [hz, (setTotal_fresh 0).1 rfl]
            exact ⟨rfl, rfl, rfl, fun _ => ⟨rfl, rfl⟩, fun hne => absurd rfl hne⟩
          · rw [(setTotal_fresh _).2 hz]
            exact ⟨rfl, rfl, rfl, fun heq => absurd heq hz, fun _ => ⟨rfl, rfl⟩⟩

theorem emitChunks_preserves {nu kappa : Type} :
    ∀ (rem i : Nat) (m : GroupByNodeM nu kappa),
      (emitChunks m i rem).1.outData = m.outData ∧
      (emitChunks m i rem).1.execChunksize = m.execChunksize ∧
      (emitChunks m i rem).1.outputCounter.total = m.outputCounter.total := by
  intro rem
  induction rem with
  | zero => intro i m; exact ⟨rfl, rfl, rfl⟩
  | succ rem ih =>
    intro i m
    have hb : (outputNthBatch m i).1.outData = m.outData ∧
        (outputNthBatch m i).1.execChunksize = m.execChunksize ∧
        (outputNthBatch m i).1.outputCounter.total = m.outputCounter.total := by
      unfold outputNthBatch
      split
      · exact ⟨rfl, rfl, rfl⟩
      · dsimp only
        split
        · exact ⟨rfl, rfl, increment_total _⟩
        · exact ⟨rfl, rfl, increment_total _⟩
    have h := ih (i + 1) (outputNthBatch m i).1
    exact ⟨h.1.trans hb.1, h.2.1.trans hb.2.1, h.2.2.trans hb.2.2⟩

/-- C4 (amended): in the group-by output phase the announced total equals
ceil(num_groups / output_batch_size), where output_batch_size is the
int64 exec_chunksize truncated to the C int width when that truncation is
non-negative (in particular exec_chunksize itself for values in
[0, 2^31)) and 32768 when the truncation is negative or the context is
unset; a zero total resolves finished during Finalize with no chunk
emitted, and a positive total is followed by exactly that many chunks,
each holding at most output_batch_size rows, with finished resolving at
the last one. -/
theorem groupBy_chunkEmission {nu kappa : Type} [Inhabited nu] [DecidableEq nu]
    (n : GroupByNodeM nu kappa) (n2 : GroupByNodeM nu kappa) (evs : List (OutEvent nu))
    (hfin : n.finished = false)
    (hcnt : n.outputCounter = AtomicCounter.fresh)
    (hout : outputResult n = .ok (n2, evs)) :
    ∃ total tail,
      evs = .inputFinished total :: tail ∧
      total = ceilDivNat n2.outData.length (outputBatchSize n.execChunksize).toNat ∧
      n2.outputCounter.total = some total ∧
      (total = 0 → tail = [] ∧ n2.finished = true) ∧
      (0 < total →
        countInputReceived tail = total ∧
        deliveredLengthsLe (outputBatchSize n.execChunksize).toNat tail = true ∧
        n2.finished = true) ∧
      (∀ v, n.execChunksize = some v → 0 ≤ toInt32 v →
        outputBatchSize n.execChunksize = toInt32 v) ∧
      (∀ v, n.execChunksize = some v → toInt32 v < 0 →
        outputBatchSize n.execChunksize = 32768) ∧
      (n.execChunksize = none → outputBatchSize n.execChunksize = 32768) := by
  have hobs1 : ∀ v, n.execChunksize = some v → 0 ≤ toInt32 v →
      outputBatchSize n.execChunksize = toInt32 v := by
    intro v hv h0
    rw [hv]
    show (if toInt32 v < 0 then 32 * 1024 else toInt32 v) = toInt32 v
    rw [if_neg (by omega)]
  have hobs2 : ∀ v, n.execChunksize = some v → toInt32 v < 0 →
      outputBatchSize n.execChunksize = 32768 := by
    intro v hv h0
    rw [hv]
    show (if toInt32 v < 0 then 32 * 1024 else toInt32 v) = 32768
    rw [if_pos h0]
    norm_num
  have hobs3 : n.execChunksize = none → outputBatchSize n.execChunksize = 32768 := by
    intro hv
    rw [hv]
    rfl
  unfold outputResult at hout
  cases hm : mergeG n with
  | error e => rw [hm, exceptBind_err] at hout; exact absurd hout (by simp)
  | ok n1 =>
    rw [hm, exceptBind_ok] at hout
    obtain ⟨hc1, hf1, he1⟩ := mergeG_preserves n n1 hm
    cases hf : finalizeG n1 with
    | error e => rw [hf, exceptBind_err] at hout; exact absurd hout (by simp)
    | ok nf =>
      rw [hf, exceptBind_ok] at hout
      obtain ⟨hech, htot, hcount, hzero, hpos⟩ :=
        finalizeG_counter n1 nf hf (by rw [hc1, hcnt]) (by rw [hf1, hfin])
      rw [he1] at htot hzero hpos
      injection hout with h2
      have hn2 : (emitChunks nf 0 ((nf.outputCounter.total).getD 0)).1 = n2 :=
        congrArg Prod.fst h2
      have hevs : OutEvent.inputFinished ((nf.outputCounter.total).getD 0) ::
          (emitChunks nf 0 ((nf.outputCounter.total).getD 0)).2 = evs :=
        congrArg Prod.snd h2
      obtain ⟨hpd, hpe, hpt⟩ :=
        emitChunks_preserves ((nf.outputCounter.total).getD 0) 0 nf
      rw [hn2] at hpd hpe hpt
      have hlen : n2.outData.length = nf.outData.length := by rw [hpd]
      set T := ceilDivNat nf.outData.length (outputBatchSize n.execChunksize).toNat
        with hTdef
      have hgetD : (nf.outputCounter.total).getD 0 = T := by rw [htot]; rfl
      refine ⟨T, (emitChunks nf 0 ((nf.outputCounter.total).getD 0)).2,
        ?_, ?_, ?_, ?_, ?_, hobs1, hobs2, hobs3⟩
      · rw [← hevs, hgetD]
      · rw [hlen]
      · rw [hpt, htot]
      · intro hz
        constructor
        · show (emitChunks nf 0 ((nf.outputCounter.total).getD 0)).2 = []
          rw [hgetD, hz]
          rfl
        · rw [← hn2, hgetD, hz]
          exact (hzero hz).2
      · intro hpos2
        have hTne : T ≠ 0 := by omega
        obtain ⟨hcmp, hfin2⟩ := hpos hTne
        have hspec := emitChunks_spec (outputBatchSize n.execChunksize).toNat T 0 nf T
          hfin2 hcmp htot (by omega) (by rw [hech, he1])
        refine ⟨?_, ?_, ?_⟩
        · rw [hgetD]
          exact hspec.1
        · rw [hgetD]
          exact hspec.2.1
        · rw [← hn2, hgetD]
          exact hspec.2.2 hpos2

/-- Witness for the amended C4 theorem: the concrete output-phase node
with three groups and chunk size 2 announces a total of two chunks and
emits exactly two of them. -/
theorem groupBy_chunkEmission_witness :
    ∃ total tail,
      (∃ p, outputResult wGroupNodeOut = .ok p ∧
        p.2 = .inputFinished total :: tail) ∧
      total = 2 ∧ countInputReceived tail = total := by
  cases hout : outputResult wGroupNodeOut with
  | error e =>
    have hsome : (outputResult wGroupNodeOut).toOption.isSome = true := by decide
    rw [hout] at hsome
    exact absurd hsome (by simp [Except.toOption])
  | ok p =>
    obtain ⟨total, tail, h1, h2, h3, hz, hp, _⟩ :=
      groupBy_chunkEmission wGroupNodeOut p.1 p.2 rfl rfl (by rw [hout])
    have hcomp : (match outputResult wGroupNodeOut with
        | Except.ok r => r.2.headD .finishedResolved
        | Except.error _ => (.finishedResolved : OutEvent Nat)) =
        (.inputFinished 2 : OutEvent Nat) := by decide
    rw [hout] at hcomp
    dsimp only at hcomp
    rw [h1] at hcomp
    simp only [List.headD_cons, OutEvent.inputFinished.injEq] at hcomp
    subst hcomp
    exact ⟨2, tail, ⟨p, rfl, h1⟩, rfl, (hp (by omega)).1⟩

